import Mathlib

/-!
# Miklagaard: progress-to-position resolution

A shallow embedding of the route-position logic of `src/app.js`:
`getCurrentSegment`, `interpolatePosition` and `updateRouteLines`.

Conventions of the embedding.

* A JavaScript number is modelled by the rational it denotes. Every arithmetic operation of the
  source (`-`, `/`, `+`, `*`) is the exact operation followed by a rounding function `rnd`,
  which the functions take as their first argument; comparisons and `Math.min` are exact.
  Two roundings are provided: `unrounded` (exact rational arithmetic) and `binary64` (IEEE 754
  double precision, round to nearest with ties to even, subnormals included). `NaN` and the
  infinities are not modelled: `binary64` is the arithmetic of the source as long as no
  operation overflows, and a division is the source's division when the divisor is not `0`.
* The module-level variable `routeData` is passed explicitly. It is `none` when unset
  (`null`), and its `stops` field is `none` when the property is missing.
* Reading a property of `undefined` throws a `TypeError` in JavaScript; functions that can
  do so return `Except JsError _`.
* An array index outside the array yields `undefined`, modelled by `jsIndex` returning `none`.
* A coordinate pair `[lat, lon]` is a pair `ℚ × ℚ`.
* The Leaflet calls (`map.removeLayer`, `L.polyline(..).addTo(map)`) are external; of them
  only the fact that a polyline is created from a coordinate array is recorded.
-/

namespace Miklagaard

/-- A stop of the route, as read from `data/route.json`. -/
structure Stop where
  name : String
  lat : ℚ
  lon : ℚ
  cum_km : ℚ
  info : Option String
  deriving DecidableEq

/-- The module variable `routeData`; `stops` is `none` when the property is absent. -/
structure RouteData where
  stops : Option (List Stop)
  deriving DecidableEq

/-- Errors thrown by the JavaScript runtime. -/
inductive JsError where
  | typeError
  deriving DecidableEq

/-- The object `{ lat, lon }` returned by `interpolatePosition`. -/
structure Position where
  lat : ℚ
  lon : ℚ
  deriving DecidableEq

/-- The object `{ from, to, progress }` returned by `getCurrentSegment`. The field `from` is
`none` when the expression stored in it evaluated to `undefined`. -/
structure Segment where
  «from» : Option Stop
  «to» : Stop
  progress : ℚ
  deriving DecidableEq

/-- A coordinate pair `[lat, lon]`. -/
abbrev Coord := ℚ × ℚ

/-- JavaScript array indexing `xs[i]` for an integer `i`: `undefined` outside the array. -/
def jsIndex {α : Type} (xs : List α) (i : Int) : Option α :=
  if i < 0 then none else xs[i.toNat]?

/-- Exact arithmetic: no rounding after an operation. -/
def unrounded (x : ℚ) : ℚ := x

/-- The integer nearest to `x`, the even one of the two when `x` lies halfway between them. -/
def roundHalfEven (x : ℚ) : ℤ :=
  if x - ⌊x⌋ < 1 / 2 then ⌊x⌋
  else if 1 / 2 < x - ⌊x⌋ then ⌊x⌋ + 1
  else if ⌊x⌋ % 2 = 0 then ⌊x⌋ else ⌊x⌋ + 1

/-- The binary exponent at which a magnitude `m` is rounded: `⌊log₂ m⌋`, and `-1022` (the
exponent of the subnormal doubles) when that is smaller. -/
def binary64.exponent (m : ℚ) : ℤ := max (Int.log 2 m) (-1022)

/-- The multiple of `2 ^ (e - 52)` nearest to `m`, ties to the even multiple: the rounding of
`m` to a 53-bit significand at the binary exponent `e`. -/
def binary64.roundAt (e : ℤ) (m : ℚ) : ℚ :=
  (roundHalfEven (m / 2 ^ (e - 52)) : ℚ) * 2 ^ (e - 52)

/-- The double nearest to a magnitude `m ≥ 0`. -/
def binary64.magnitude (m : ℚ) : ℚ := binary64.roundAt (binary64.exponent m) m

/-- The double nearest to `q` (round to nearest, ties to even), as a rational. The double
written with the decimal digits `d` in a JSON file or in JavaScript source is `binary64 d`. -/
def binary64 (q : ℚ) : ℚ :=
  if q < 0 then - binary64.magnitude (-q) else binary64.magnitude q

/-- What the proofs use of a rounding function: it is monotone, it leaves `0` and `1`
unchanged, and the rounded difference of two of its values is positive when the difference
is. Both `unrounded` and `binary64` have these properties. -/
structure Rounding (rnd : ℚ → ℚ) : Prop where
  mono : ∀ x y, x ≤ y → rnd x ≤ rnd y
  map_zero : rnd 0 = 0
  map_one : rnd 1 = 1
  sub_pos_of_lt : ∀ x y, rnd x = x → rnd y = y → x < y → 0 < rnd (y - x)

/-- The `for` loop of `getCurrentSegment` (lines 289-297): it visits the consecutive pairs
`(stops[i], stops[i + 1])` for `i = 0, …, stops.length - 2` in order and returns at the first
pair with `clampedKm >= stops[i].cum_km && clampedKm < stops[i + 1].cum_km`; `none` when the
loop runs to its end. -/
def getCurrentSegment.loop (rnd : ℚ → ℚ) (clampedKm : ℚ) : List Stop → Option Segment
  | a :: b :: rest =>
    if clampedKm ≥ a.cum_km ∧ clampedKm < b.cum_km then
      some { «from» := some a, «to» := b,
             progress := rnd (rnd (clampedKm - a.cum_km) / rnd (b.cum_km - a.cum_km)) }
    else getCurrentSegment.loop rnd clampedKm (b :: rest)
  | _ => none

/-- The body of the `for` loop of `getCurrentSegment` at index `i` (lines 290-296): the
segment returned at this index, or `none` when the loop goes on to `i + 1`. -/
def getCurrentSegment.atIndex (rnd : ℚ → ℚ) (clampedKm : ℚ) (stops : List Stop) (i : Nat) :
    Option Segment :=
  match stops[i]?, stops[i + 1]? with
  | some a, some b =>
    if clampedKm ≥ a.cum_km ∧ clampedKm < b.cum_km then
      some { «from» := some a, «to» := b,
             progress := rnd (rnd (clampedKm - a.cum_km) / rnd (b.cum_km - a.cum_km)) }
    else none
  | _, _ => none

/-- The function `getCurrentSegment(totalKm)` (lines 280-309). `.ok none` is `null`. -/
def getCurrentSegment (rnd : ℚ → ℚ) (routeData : Option RouteData) (totalKm : ℚ) :
    Except JsError (Option Segment) :=
  match routeData with
  | none => .ok none
  | some rd =>
    match rd.stops with
    | none => .ok none
    | some stops =>
      match jsIndex stops ((stops.length : Int) - 1) with
      | none => .error .typeError
      | some lastStop =>
        let clampedKm := min totalKm lastStop.cum_km
        match getCurrentSegment.loop rnd clampedKm stops with
        | some seg => .ok (some seg)
        | none =>
          if clampedKm ≥ lastStop.cum_km then
            .ok (some { «from» := jsIndex stops ((stops.length : Int) - 2), «to» := lastStop,
                        progress := 1 })
          else .ok none

/-- The function `interpolatePosition(from, to, progress)` (lines 312-317). -/
def interpolatePosition (rnd : ℚ → ℚ) (frm dst : Stop) (progress : ℚ) : Position :=
  { lat := rnd (frm.lat + rnd (rnd (dst.lat - frm.lat) * progress)),
    lon := rnd (frm.lon + rnd (rnd (dst.lon - frm.lon) * progress)) }

/-- The coordinate pair `[stop.lat, stop.lon]`. -/
def Stop.coord (stop : Stop) : Coord := (stop.lat, stop.lon)

/-- The coordinate pair `[currentPos.lat, currentPos.lon]`. -/
def Position.coord (p : Position) : Coord := (p.lat, p.lon)

/-- What one call of `updateRouteLines` builds: the two coordinate arrays as they stand at
line 147, and the polylines created from them (`none` when the array has fewer than two
points and no line is drawn). -/
structure RouteLines where
  completedCoords : List Coord
  remainingCoords : List Coord
  completed : Option (List Coord)
  remaining : Option (List Coord)
  deriving DecidableEq

/-- One iteration of the `for` loop of `updateRouteLines` (lines 127-141) on the pair
`(completedCoords, remainingCoords)`. -/
def updateRouteLines.step (totalKm : ℚ) (currentPos : Option Position)
    (acc : List Coord × List Coord) (stop : Stop) : List Coord × List Coord :=
  if totalKm ≥ stop.cum_km then
    (acc.1 ++ [stop.coord], acc.2)
  else
    let remainingCoords :=
      match currentPos with
      | some pos => if acc.2.length = 0 then acc.2 ++ [pos.coord] else acc.2
      | none => acc.2
    (acc.1, remainingCoords ++ [stop.coord])

/-- The function `updateRouteLines(totalKm)` (lines 103-165). `.ok none` is the early return
of line 104. -/
def updateRouteLines (rnd : ℚ → ℚ) (routeData : Option RouteData) (totalKm : ℚ) :
    Except JsError (Option RouteLines) :=
  match routeData with
  | none => .ok none
  | some rd =>
    match rd.stops with
    | none => .ok none
    | some stops =>
      match getCurrentSegment rnd routeData totalKm with
      | .error e => .error e
      | .ok segment =>
        let currentPos : Except JsError (Option Position) :=
          match segment with
          | none => .ok none
          | some seg =>
            match seg.«from» with
            | none => .error .typeError
            | some frm => .ok (some (interpolatePosition rnd frm seg.«to» seg.progress))
        match currentPos with
        | .error e => .error e
        | .ok currentPos =>
          let acc := stops.foldl (updateRouteLines.step totalKm currentPos) ([], [])
          let completedCoords :=
            match currentPos with
            | some pos => if acc.1.length > 0 then acc.1 ++ [pos.coord] else acc.1
            | none => acc.1
          let remainingCoords := acc.2
          .ok (some
            { completedCoords := completedCoords,
              remainingCoords := remainingCoords,
              completed := if completedCoords.length ≥ 2 then some completedCoords else none,
              remaining := if remainingCoords.length ≥ 2 then some remainingCoords else none })

/-- The route invariant of the data model: `cum_km` strictly increases along the stops. -/
def StrictlyIncreasing (stops : List Stop) : Prop :=
  List.Chain' (fun a b => a.cum_km < b.cum_km) stops

instance (stops : List Stop) : Decidable (StrictlyIncreasing stops) := by
  unfold StrictlyIncreasing; infer_instance

/-- A stop with the given coordinates and distance marker, for examples. -/
def mkStop (name : String) (lat lon cum_km : ℚ) : Stop :=
  { name := name, lat := lat, lon := lon, cum_km := cum_km, info := none }

/-- The example route of the specification: distance markers `0, 10, 25, 50`. -/
def exampleStops : List Stop :=
  [mkStop "s0" 0 0 0, mkStop "s1" 3 6 10, mkStop "s2" 6 9 25, mkStop "s3" 12 18 50]

/-- The example route as the value of `routeData`. -/
def exampleRoute : Option RouteData := some { stops := some exampleStops }

/-- A route of two stops with the markers `6.7` and `15.4`, each given as the double that the
decimal denotes. -/
def decimalStops : List Stop :=
  [mkStop "a" 0 0 (7543529375845581 / 2 ^ 50), mkStop "b" 1 1 (8669429282688205 / 2 ^ 49)]

/-- The distance `15.399999999999999` as a double: the double just below `15.4`. -/
def justBelowEnd : ℚ := 8669429282688204 / 2 ^ 49

/-- A route of two stops with the markers `0` and `4`. -/
def shortStops : List Stop := [mkStop "a" 0 0 0, mkStop "b" 1 1 4]

/-- The distance `5e-324`: the smallest positive double, `2 ^ (-1074)`. -/
def tinyKm : ℚ := 2 ^ (-1074 : ℤ)

/-- A route of two stops at the coordinates `(0.7, 0.3)` and `(0.1, 0.2)`, each given as the
double that the decimal denotes, with the markers `0` and `5`. -/
def coastStops : List Stop :=
  [mkStop "A" (3152519739159347 / 2 ^ 52) (5404319552844595 / 2 ^ 54) 0,
   mkStop "B" (3602879701896397 / 2 ^ 55) (3602879701896397 / 2 ^ 54) 5]

/-! ## Rounding to double precision -/

theorem roundHalfEven_intCast (n : ℤ) : roundHalfEven (n : ℚ) = n := by
  simp [roundHalfEven]

theorem roundHalfEven_cases (x : ℚ) :
    (roundHalfEven x = ⌊x⌋ ∧ x - ⌊x⌋ ≤ 1 / 2) ∨ (roundHalfEven x = ⌊x⌋ + 1 ∧ 1 / 2 ≤ x - ⌊x⌋) := by
  unfold roundHalfEven
  split_ifs with h1 h2 h3
  · exact Or.inl ⟨rfl, le_of_lt h1⟩
  · exact Or.inr ⟨rfl, le_of_lt h2⟩
  · exact Or.inl ⟨rfl, not_lt.mp h2⟩
  · exact Or.inr ⟨rfl, not_lt.mp h1⟩

theorem roundHalfEven_mono {x y : ℚ} (h : x ≤ y) : roundHalfEven x ≤ roundHalfEven y := by
  have hf : ⌊x⌋ ≤ ⌊y⌋ := Int.floor_mono h
  rcases lt_or_eq_of_le hf with hlt | heq
  · rcases roundHalfEven_cases x with ⟨hx, _⟩ | ⟨hx, _⟩ <;>
      rcases roundHalfEven_cases y with ⟨hy, _⟩ | ⟨hy, _⟩ <;> omega
  · have hfrac : x - ⌊x⌋ ≤ y - ⌊y⌋ := by rw [heq]; linarith
    unfold roundHalfEven
    rw [heq] at hfrac ⊢
    split_ifs <;> first | omega | (exfalso; linarith)

theorem two_zpow_pos (e : ℤ) : (0 : ℚ) < 2 ^ e := zpow_pos (by norm_num) e

theorem roundAt_mono (e : ℤ) {x y : ℚ} (h : x ≤ y) :
    binary64.roundAt e x ≤ binary64.roundAt e y := by
  unfold binary64.roundAt
  have hu := two_zpow_pos (e - 52)
  have hdiv : x / 2 ^ (e - 52) ≤ y / 2 ^ (e - 52) := div_le_div_of_nonneg_right h (le_of_lt hu)
  have hr : ((roundHalfEven (x / 2 ^ (e - 52)) : ℤ) : ℚ) ≤ roundHalfEven (y / 2 ^ (e - 52)) := by
    exact_mod_cast roundHalfEven_mono hdiv
  exact mul_le_mul_of_nonneg_right hr (le_of_lt hu)

theorem roundAt_fix (e : ℤ) (k : ℤ) :
    binary64.roundAt e ((k : ℚ) * 2 ^ (e - 52)) = (k : ℚ) * 2 ^ (e - 52) := by
  unfold binary64.roundAt
  have hu := two_zpow_pos (e - 52)
  rw [mul_div_assoc, div_self (ne_of_gt hu), mul_one, roundHalfEven_intCast]

theorem roundAt_zero (e : ℤ) : binary64.roundAt e 0 = 0 := by
  have h := roundAt_fix e 0
  simpa using h

theorem roundAt_two_zpow (e : ℤ) : binary64.roundAt e (2 ^ e) = 2 ^ e := by
  have h := roundAt_fix e (2 ^ 52)
  have h2 : (((2 : ℤ) ^ 52 : ℤ) : ℚ) * 2 ^ (e - 52) = 2 ^ e := by
    have hc : (((2 : ℤ) ^ 52 : ℤ) : ℚ) = (2 : ℚ) ^ (52 : ℤ) := by norm_num
    rw [hc, ← zpow_add₀ (by norm_num : (2 : ℚ) ≠ 0)]
    congr 1
    ring
  rw [h2] at h
  exact h

theorem roundAt_two_zpow_succ (e : ℤ) : binary64.roundAt e (2 ^ (e + 1)) = 2 ^ (e + 1) := by
  have h := roundAt_fix e (2 ^ 53)
  have h2 : (((2 : ℤ) ^ 53 : ℤ) : ℚ) * 2 ^ (e - 52) = 2 ^ (e + 1) := by
    have hc : (((2 : ℤ) ^ 53 : ℤ) : ℚ) = (2 : ℚ) ^ (53 : ℤ) := by norm_num
    rw [hc, ← zpow_add₀ (by norm_num : (2 : ℚ) ≠ 0)]
    congr 1
    ring
  rw [h2] at h
  exact h

theorem exponent_ge (m : ℚ) : -1022 ≤ binary64.exponent m := le_max_right _ _

theorem exponent_mono {x y : ℚ} (hx : 0 < x) (h : x ≤ y) :
    binary64.exponent x ≤ binary64.exponent y :=
  max_le_max (Int.log_mono_right hx h) (le_refl _)

theorem lt_two_zpow_exponent_succ (m : ℚ) : m < 2 ^ (binary64.exponent m + 1) := by
  have h1 : m < ((2 : ℕ) : ℚ) ^ (Int.log 2 m + 1) := Int.lt_zpow_succ_log_self (by norm_num) m
  have h2 : ((2 : ℕ) : ℚ) ^ (Int.log 2 m + 1) ≤ ((2 : ℕ) : ℚ) ^ (binary64.exponent m + 1) :=
    zpow_le_zpow_right₀ (by norm_num) (by
      have := le_max_left (Int.log 2 m) (-1022)
      unfold binary64.exponent
      omega)
  have h3 := lt_of_lt_of_le h1 h2
  simpa using h3

theorem magnitude_zero : binary64.magnitude 0 = 0 := roundAt_zero _

theorem magnitude_nonneg {m : ℚ} (hm : 0 ≤ m) : 0 ≤ binary64.magnitude m := by
  have h := roundAt_mono (binary64.exponent m) hm
  rw [roundAt_zero] at h
  exact h

theorem magnitude_le {m : ℚ} : binary64.magnitude m ≤ 2 ^ (binary64.exponent m + 1) := by
  have h := roundAt_mono (binary64.exponent m) (le_of_lt (lt_two_zpow_exponent_succ m))
  rw [roundAt_two_zpow_succ] at h
  exact h

theorem le_magnitude {m : ℚ} (hm : 0 < m) (he : -1022 < binary64.exponent m) :
    2 ^ (binary64.exponent m) ≤ binary64.magnitude m := by
  have hlog : binary64.exponent m = Int.log 2 m := by
    unfold binary64.exponent at he ⊢
    rcases max_cases (Int.log 2 m) (-1022) with ⟨h, _⟩ | ⟨h, _⟩
    · exact h
    · rw [h] at he
      exact absurd he (lt_irrefl _)
  have h1 : ((2 : ℕ) : ℚ) ^ Int.log 2 m ≤ m := Int.zpow_log_le_self (by norm_num) hm
  have h2 : (2 : ℚ) ^ binary64.exponent m ≤ m := by
    rw [hlog]
    simpa using h1
  have h := roundAt_mono (binary64.exponent m) h2
  rw [roundAt_two_zpow] at h
  exact h

theorem magnitude_mono {x y : ℚ} (hx : 0 ≤ x) (h : x ≤ y) :
    binary64.magnitude x ≤ binary64.magnitude y := by
  rcases eq_or_lt_of_le hx with h0 | hpos
  · rw [← h0, magnitude_zero]
    exact magnitude_nonneg (le_trans hx h)
  · have hy : 0 < y := lt_of_lt_of_le hpos h
    rcases eq_or_lt_of_le (exponent_mono hpos h) with heq | hlt
    · unfold binary64.magnitude
      rw [heq]
      exact roundAt_mono _ h
    · have hey : -1022 < binary64.exponent y := lt_of_le_of_lt (exponent_ge x) hlt
      have h1 := @magnitude_le x
      have h2 := le_magnitude hy hey
      have h3 : (2 : ℚ) ^ (binary64.exponent x + 1) ≤ 2 ^ binary64.exponent y :=
        zpow_le_zpow_right₀ (by norm_num) (by omega)
      linarith

theorem binary64_zero : binary64 0 = 0 := by
  simp [binary64, magnitude_zero]

theorem binary64_of_nonneg {q : ℚ} (h : 0 ≤ q) : binary64 q = binary64.magnitude q := by
  unfold binary64
  rw [if_neg (not_lt.mpr h)]

theorem binary64_of_neg {q : ℚ} (h : q < 0) : binary64 q = - binary64.magnitude (-q) := by
  unfold binary64
  rw [if_pos h]

theorem binary64_mono {x y : ℚ} (h : x ≤ y) : binary64 x ≤ binary64 y := by
  rcases lt_or_le x 0 with hx | hx
  · rcases lt_or_le y 0 with hy | hy
    · rw [binary64_of_neg hx, binary64_of_neg hy]
      have := magnitude_mono (le_of_lt (neg_pos.mpr hy)) (neg_le_neg h)
      linarith
    · rw [binary64_of_neg hx, binary64_of_nonneg hy]
      have h1 := magnitude_nonneg (le_of_lt (neg_pos.mpr hx))
      have h2 := magnitude_nonneg hy
      linarith
  · rw [binary64_of_nonneg hx, binary64_of_nonneg (le_trans hx h)]
    exact magnitude_mono hx h

theorem two_zpow_split (a b : ℤ) (h : a ≤ b) :
    (2 : ℚ) ^ b = (((2 : ℤ) ^ (b - a).toNat : ℤ) : ℚ) * 2 ^ a := by
  have hn : ((b - a).toNat : ℤ) = b - a := Int.toNat_of_nonneg (by omega)
  have hc : (((2 : ℤ) ^ (b - a).toNat : ℤ) : ℚ) = (2 : ℚ) ^ (((b - a).toNat : ℕ) : ℤ) := by
    rw [zpow_natCast]
    push_cast
    rfl
  rw [hc, hn, ← zpow_add₀ (by norm_num : (2 : ℚ) ≠ 0)]
  congr 1
  ring

theorem magnitude_grid (m : ℚ) : ∃ z : ℤ, binary64.magnitude m = (z : ℚ) * 2 ^ (-1074 : ℤ) := by
  unfold binary64.magnitude binary64.roundAt
  have he := exponent_ge m
  generalize binary64.exponent m = e at he
  generalize roundHalfEven (m / 2 ^ (e - 52)) = k
  refine ⟨k * 2 ^ (e - 52 - -1074).toNat, ?_⟩
  rw [two_zpow_split (-1074) (e - 52) (by omega)]
  push_cast
  ring

theorem binary64_grid (q : ℚ) : ∃ z : ℤ, binary64 q = (z : ℚ) * 2 ^ (-1074 : ℤ) := by
  rcases lt_or_le q 0 with h | h
  · obtain ⟨z, hz⟩ := magnitude_grid (-q)
    refine ⟨-z, ?_⟩
    rw [binary64_of_neg h, hz]
    push_cast
    ring
  · obtain ⟨z, hz⟩ := magnitude_grid q
    exact ⟨z, by rw [binary64_of_nonneg h, hz]⟩

theorem magnitude_dyadic (k s : ℤ) (hk0 : 0 ≤ k) (hk : k < 2 ^ 53) (hs : -1074 ≤ s) :
    binary64.magnitude ((k : ℚ) * 2 ^ s) = (k : ℚ) * 2 ^ s := by
  rcases eq_or_lt_of_le hk0 with h0 | hpos
  · rw [← h0]
    simp [magnitude_zero]
  · have hu := two_zpow_pos s
    have hkq : (0 : ℚ) < k := by exact_mod_cast hpos
    have hq : (0 : ℚ) < (k : ℚ) * 2 ^ s := mul_pos hkq hu
    have hlt : (k : ℚ) * 2 ^ s < ((2 : ℕ) : ℚ) ^ (s + 53) := by
      have hk' : (k : ℚ) < 2 ^ (53 : ℤ) := by
        have : ((k : ℤ) : ℚ) < (((2 : ℤ) ^ 53 : ℤ) : ℚ) := by exact_mod_cast hk
        norm_num at this ⊢
        exact this
      have : (k : ℚ) * 2 ^ s < 2 ^ (53 : ℤ) * 2 ^ s := mul_lt_mul_of_pos_right hk' hu
      rw [← zpow_add₀ (by norm_num : (2 : ℚ) ≠ 0)] at this
      rw [add_comm s 53]
      simpa using this
    have hlog : Int.log 2 ((k : ℚ) * 2 ^ s) < s + 53 :=
      (Int.lt_zpow_iff_log_lt (by norm_num) hq).mp hlt
    have he : binary64.exponent ((k : ℚ) * 2 ^ s) - 52 ≤ s := by
      unfold binary64.exponent
      rcases max_cases (Int.log 2 ((k : ℚ) * 2 ^ s)) (-1022) with ⟨h, _⟩ | ⟨h, _⟩ <;>
        rw [h] <;> omega
    unfold binary64.magnitude
    generalize binary64.exponent ((k : ℚ) * 2 ^ s) = e at he
    have hform : (k : ℚ) * 2 ^ s = ((k * 2 ^ (s - (e - 52)).toNat : ℤ) : ℚ) * 2 ^ (e - 52) := by
      conv_lhs => rw [two_zpow_split (e - 52) s he]
      push_cast
      ring
    rw [hform, roundAt_fix]

theorem binary64_dyadic (k s : ℤ) (hk : |k| < 2 ^ 53) (hs : -1074 ≤ s) :
    binary64 ((k : ℚ) * 2 ^ s) = (k : ℚ) * 2 ^ s := by
  have hu := two_zpow_pos s
  rw [abs_lt] at hk
  rcases lt_or_le k 0 with h | h
  · have hq : (k : ℚ) * 2 ^ s < 0 := mul_neg_of_neg_of_pos (by exact_mod_cast h) hu
    have hneg : -((k : ℚ) * 2 ^ s) = ((-k : ℤ) : ℚ) * 2 ^ s := by
      push_cast
      ring
    rw [binary64_of_neg hq, hneg, magnitude_dyadic (-k) s (by omega) (by omega) hs]
    push_cast
    ring
  · have hq : 0 ≤ (k : ℚ) * 2 ^ s := mul_nonneg (by exact_mod_cast h) (le_of_lt hu)
    rw [binary64_of_nonneg hq, magnitude_dyadic k s h hk.2 hs]

theorem binary64_intCast (n : ℤ) (hn : |n| < 2 ^ 53) : binary64 (n : ℚ) = n := by
  have h := binary64_dyadic n 0 hn (by norm_num)
  simpa using h

theorem binary64_one : binary64 1 = 1 := by
  have h := binary64_intCast 1 (by norm_num)
  simpa using h

theorem binary64_sub_pos {x y : ℚ} (hx : binary64 x = x) (hy : binary64 y = y) (h : x < y) :
    0 < binary64 (y - x) := by
  obtain ⟨zx, hzx⟩ := binary64_grid x
  obtain ⟨zy, hzy⟩ := binary64_grid y
  rw [hx] at hzx
  rw [hy] at hzy
  have hd := two_zpow_pos (-1074)
  have hz : zx < zy := by
    by_contra hcon
    have hle : (zy : ℚ) ≤ zx := by exact_mod_cast not_lt.mp hcon
    have : y ≤ x := by
      rw [hzx, hzy]
      exact mul_le_mul_of_nonneg_right hle (le_of_lt hd)
    linarith
  have hone : (1 : ℚ) ≤ (zy : ℚ) - zx := by
    have : (1 : ℤ) ≤ zy - zx := by omega
    exact_mod_cast this
  have hge : (2 : ℚ) ^ (-1074 : ℤ) ≤ y - x := by
    rw [hzx, hzy, ← sub_mul]
    calc (2 : ℚ) ^ (-1074 : ℤ) = 1 * 2 ^ (-1074 : ℤ) := (one_mul _).symm
      _ ≤ ((zy : ℚ) - zx) * 2 ^ (-1074 : ℤ) := mul_le_mul_of_nonneg_right hone (le_of_lt hd)
  have hfix : binary64 ((2 : ℚ) ^ (-1074 : ℤ)) = 2 ^ (-1074 : ℤ) := by
    have h1 := binary64_dyadic 1 (-1074) (by norm_num) (le_refl _)
    simpa using h1
  have hm := binary64_mono hge
  rw [hfix] at hm
  exact lt_of_lt_of_le hd hm

theorem binary64_rounding : Rounding binary64 where
  mono := fun _ _ h => binary64_mono h
  map_zero := binary64_zero
  map_one := binary64_one
  sub_pos_of_lt := fun _ _ hx hy h => binary64_sub_pos hx hy h

theorem unrounded_rounding : Rounding unrounded where
  mono := fun _ _ h => h
  map_zero := rfl
  map_one := rfl
  sub_pos_of_lt := fun _ _ _ _ h => sub_pos.mpr h

theorem exponent_eq {q : ℚ} {e : ℤ} (hq : 0 < q) (he : -1022 ≤ e)
    (hlo : 2 ^ e ≤ q ∨ e = -1022) (hhi : q < 2 ^ (e + 1)) : binary64.exponent q = e := by
  have hlog_lt : Int.log 2 q < e + 1 :=
    (Int.lt_zpow_iff_log_lt (by norm_num) hq).mp (by simpa using hhi)
  unfold binary64.exponent
  rcases hlo with hlo | hlo
  · have hlog_ge : e ≤ Int.log 2 q :=
      (Int.zpow_le_iff_le_log (by norm_num) hq).mp (by simpa using hlo)
    have : Int.log 2 q = e := by omega
    rw [this]
    exact max_eq_left he
  · rw [hlo] at hlog_lt ⊢
    exact max_eq_right (by omega)

theorem roundHalfEven_eq_of_lt {x : ℚ} {k : ℤ} (h1 : (k : ℚ) - 1 / 2 < x)
    (h2 : x < (k : ℚ) + 1 / 2) : roundHalfEven x = k := by
  rcases lt_or_le x k with hx | hx
  · have hf : ⌊x⌋ = k - 1 := by
      rw [Int.floor_eq_iff]
      push_cast
      constructor <;> linarith
    unfold roundHalfEven
    rw [hf]
    push_cast
    rw [if_neg (by linarith), if_pos (by linarith)]
    ring
  · have hf : ⌊x⌋ = k := by
      rw [Int.floor_eq_iff]
      constructor <;> linarith
    unfold roundHalfEven
    rw [hf, if_pos (by linarith)]

theorem roundHalfEven_eq_of_tie_up {x : ℚ} {k : ℤ} (hk : k % 2 = 0)
    (h : x = (k : ℚ) - 1 / 2) : roundHalfEven x = k := by
  have hf : ⌊x⌋ = k - 1 := by
    rw [Int.floor_eq_iff]
    push_cast
    constructor <;> linarith
  unfold roundHalfEven
  rw [hf]
  push_cast
  rw [if_neg (by linarith), if_neg (by linarith), if_neg (by omega)]
  ring

theorem roundHalfEven_eq_of_tie_down {x : ℚ} {k : ℤ} (hk : k % 2 = 0)
    (h : x = (k : ℚ) + 1 / 2) : roundHalfEven x = k := by
  have hf : ⌊x⌋ = k := by
    rw [Int.floor_eq_iff]
    constructor <;> linarith
  unfold roundHalfEven
  rw [hf, if_neg (by linarith), if_neg (by linarith), if_pos hk]

theorem binary64_eval {q : ℚ} (e k : ℤ) (hq : 0 < q) (he : -1022 ≤ e)
    (hlo : 2 ^ e ≤ q ∨ e = -1022) (hhi : q < 2 ^ (e + 1))
    (hk : roundHalfEven (q / 2 ^ (e - 52)) = k) : binary64 q = (k : ℚ) * 2 ^ (e - 52) := by
  rw [binary64_of_nonneg (le_of_lt hq)]
  unfold binary64.magnitude binary64.roundAt
  rw [exponent_eq hq he hlo hhi, hk]

theorem binary64_eval_neg {q : ℚ} (e k : ℤ) (hq : q < 0) (he : -1022 ≤ e)
    (hlo : 2 ^ e ≤ -q ∨ e = -1022) (hhi : -q < 2 ^ (e + 1))
    (hk : roundHalfEven (-q / 2 ^ (e - 52)) = k) : binary64 q = -((k : ℚ) * 2 ^ (e - 52)) := by
  rw [binary64_of_neg hq]
  unfold binary64.magnitude binary64.roundAt
  rw [exponent_eq (neg_pos.mpr hq) he hlo hhi, hk]

/-! ## Array indexing -/

theorem jsIndex_natCast {α : Type} (xs : List α) (n : Nat) : jsIndex xs (n : Int) = xs[n]? := by
  simp [jsIndex]

theorem jsIndex_length_sub_one {α : Type} (xs : List α) :
    jsIndex xs ((xs.length : Int) - 1) = xs.getLast? := by
  cases xs with
  | nil => simp [jsIndex]
  | cons x xs =>
    have h : (((x :: xs).length : Int) - 1) = ((xs.length : Nat) : Int) := by
      simp
    rw [h, jsIndex_natCast, List.getLast?_eq_getElem?]
    simp

theorem jsIndex_length_sub_two {α : Type} (xs : List α) (h2 : 2 ≤ xs.length) :
    jsIndex xs ((xs.length : Int) - 2) = xs[xs.length - 2]? := by
  have h : ((xs.length : Int) - 2) = ((xs.length - 2 : Nat) : Int) := by
    omega
  rw [h, jsIndex_natCast]

/-! ## The scan of `getCurrentSegment` -/

theorem loop_skip {rnd : ℚ → ℚ} (k : ℚ) (pre : List Stop) (c : Stop) (rest : List Stop)
    (hpre : ∀ x ∈ pre, x.cum_km ≤ k) (hc : c.cum_km ≤ k) :
    getCurrentSegment.loop rnd k (pre ++ c :: rest) = getCurrentSegment.loop rnd k (c :: rest) := by
  induction pre with
  | nil => rfl
  | cons p pre ih =>
    have ih1 := ih (fun x hx => hpre x (List.mem_cons_of_mem _ hx))
    cases pre with
    | nil =>
      simp only [List.nil_append, List.cons_append, getCurrentSegment.loop]
      rw [if_neg]
      intro h
      exact absurd h.2 (not_lt.mpr hc)
    | cons q pre =>
      have hq : q.cum_km ≤ k := hpre q (by simp)
      simp only [List.cons_append, getCurrentSegment.loop]
      rw [if_neg]
      · simpa using ih1
      · intro h
        exact absurd h.2 (not_lt.mpr hq)

theorem loop_none_of_le {rnd : ℚ → ℚ} (k : ℚ) (stops : List Stop) (h : ∀ x ∈ stops.tail, x.cum_km ≤ k) :
    getCurrentSegment.loop rnd k stops = none := by
  induction stops with
  | nil => rfl
  | cons a rest ih =>
    cases rest with
    | nil => rfl
    | cons b rest =>
      have hb : b.cum_km ≤ k := h b (by simp)
      simp only [getCurrentSegment.loop]
      rw [if_neg]
      · apply ih
        intro x hx
        exact h x (by simp at hx ⊢; exact Or.inr hx)
      · intro h2
        exact absurd h2.2 (not_lt.mpr hb)

theorem loop_none_of_lt {rnd : ℚ → ℚ} (k : ℚ) (stops : List Stop) (h : ∀ x ∈ stops, k < x.cum_km) :
    getCurrentSegment.loop rnd k stops = none := by
  induction stops with
  | nil => rfl
  | cons a rest ih =>
    cases rest with
    | nil => rfl
    | cons b rest =>
      have ha : k < a.cum_km := h a (by simp)
      simp only [getCurrentSegment.loop]
      rw [if_neg]
      · apply ih
        intro x hx
        exact h x (List.mem_cons_of_mem _ hx)
      · intro h2
        exact absurd h2.1 (not_le.mpr ha)

theorem atIndex_succ {rnd : ℚ → ℚ} (k : ℚ) (a : Stop) (stops : List Stop) (i : Nat) :
    getCurrentSegment.atIndex rnd k (a :: stops) (i + 1) = getCurrentSegment.atIndex rnd k stops i := by
  simp [getCurrentSegment.atIndex]

/-- The scan over consecutive pairs is the indexed loop of the source: it returns what the
loop body returns at the first index `i` in `0, …, stops.length - 2` where it returns. -/
theorem loop_eq_findSome? {rnd : ℚ → ℚ} (k : ℚ) (stops : List Stop) :
    getCurrentSegment.loop rnd k stops =
      (List.range (stops.length - 1)).findSome? (getCurrentSegment.atIndex rnd k stops) := by
  induction stops with
  | nil => rfl
  | cons a rest ih =>
    cases rest with
    | nil => rfl
    | cons b rest =>
      have hlen : (a :: b :: rest).length - 1 = (b :: rest).length - 1 + 1 := by simp
      have hfun : (getCurrentSegment.atIndex rnd k (a :: b :: rest)) ∘ Nat.succ =
          getCurrentSegment.atIndex rnd k (b :: rest) := by
        funext i
        exact atIndex_succ k a (b :: rest) i
      rw [hlen, List.range_succ_eq_map, List.findSome?_cons, List.findSome?_map, hfun, ← ih]
      simp only [getCurrentSegment.loop, getCurrentSegment.atIndex, List.getElem?_cons_zero,
        List.getElem?_cons_succ, zero_add]
      by_cases hc : k ≥ a.cum_km ∧ k < b.cum_km
      · rw [if_pos hc, if_pos hc]
      · rw [if_neg hc, if_neg hc]

theorem loop_some {rnd : ℚ → ℚ} (k : ℚ) (stops : List Stop) (seg : Segment)
    (h : getCurrentSegment.loop rnd k stops = some seg) :
    ∃ i a b, stops[i]? = some a ∧ stops[i + 1]? = some b ∧ a.cum_km ≤ k ∧ k < b.cum_km ∧
      seg = { «from» := some a, «to» := b, progress := rnd (rnd (k - a.cum_km) / rnd (b.cum_km - a.cum_km)) } := by
  induction stops with
  | nil => simp [getCurrentSegment.loop] at h
  | cons a rest ih =>
    cases rest with
    | nil => simp [getCurrentSegment.loop] at h
    | cons b rest =>
      simp only [getCurrentSegment.loop] at h
      by_cases hc : k ≥ a.cum_km ∧ k < b.cum_km
      · rw [if_pos hc] at h
        refine ⟨0, a, b, by simp, by simp, hc.1, hc.2, ?_⟩
        exact (Option.some.inj h).symm
      · rw [if_neg hc] at h
        obtain ⟨i, x, y, hx, hy, h1, h2, h3⟩ := ih h
        exact ⟨i + 1, x, y, by simpa using hx, by simpa using hy, h1, h2, h3⟩

/-! ## Strictly increasing routes -/

theorem StrictlyIncreasing.pairwise {stops : List Stop} (h : StrictlyIncreasing stops) :
    stops.Pairwise (fun a b => a.cum_km < b.cum_km) := by
  unfold StrictlyIncreasing at h
  haveI : IsTrans Stop (fun a b => a.cum_km < b.cum_km) := ⟨fun _ _ _ hab hbc => lt_trans hab hbc⟩
  exact (List.chain'_iff_pairwise).mp h

theorem StrictlyIncreasing.le_getLast {stops : List Stop} (h : StrictlyIncreasing stops)
    {lastStop : Stop} (hl : stops.getLast? = some lastStop) :
    ∀ x ∈ stops, x.cum_km ≤ lastStop.cum_km := by
  intro x hx
  have hne : stops ≠ [] := List.ne_nil_of_mem hx
  have hsplit : stops = stops.dropLast ++ [lastStop] := by
    have h1 := (List.dropLast_append_getLast hne).symm
    rw [List.getLast?_eq_getLast stops hne] at hl
    rw [Option.some.inj hl] at h1
    exact h1
  have hp := h.pairwise
  rw [hsplit, List.pairwise_append] at hp
  rw [hsplit, List.mem_append] at hx
  rcases hx with hx | hx
  · exact le_of_lt (hp.2.2 x hx lastStop (by simp))
  · simp at hx
    rw [hx]

theorem split_at_index {α : Type} (xs : List α) (i : Nat) (a b : α)
    (ha : xs[i]? = some a) (hb : xs[i + 1]? = some b) :
    xs = xs.take i ++ a :: b :: xs.drop (i + 2) := by
  induction xs generalizing i with
  | nil => simp at ha
  | cons x xs ih =>
    cases i with
    | zero =>
      cases xs with
      | nil => simp at hb
      | cons y ys =>
        simp at ha hb
        simp [ha, hb]
    | succ i =>
      simp at ha hb
      have := ih i ha hb
      simp only [List.take_succ_cons, List.cons_append, List.drop_succ_cons]
      exact congrArg _ this

/-- On a strictly increasing route, every stop before index `i` has a smaller marker than
`stops[i]`, and every stop after index `i + 1` has a larger marker than `stops[i + 1]`. -/
theorem StrictlyIncreasing.around {stops : List Stop} (h : StrictlyIncreasing stops)
    {i : Nat} {a b : Stop} (ha : stops[i]? = some a) (hb : stops[i + 1]? = some b) :
    (∀ x ∈ stops.take i, x.cum_km < a.cum_km) ∧ a.cum_km < b.cum_km ∧
      (∀ x ∈ stops.drop (i + 2), b.cum_km < x.cum_km) := by
  have hp := h.pairwise
  have hs := split_at_index stops i a b ha hb
  rw [hs, List.pairwise_append] at hp
  obtain ⟨_, hmid, hcross⟩ := hp
  rw [List.pairwise_cons] at hmid
  obtain ⟨hab, hrest⟩ := hmid
  rw [List.pairwise_cons] at hrest
  refine ⟨fun x hx => hcross x hx a (by simp), hab b (by simp), fun x hx => hrest.1 x hx⟩

/-! ## Unfolding `getCurrentSegment` on a route that has a last stop -/

theorem getCurrentSegment_of_getLast {rnd : ℚ → ℚ} (stops : List Stop) (totalKm : ℚ) (lastStop : Stop)
    (hl : stops.getLast? = some lastStop) :
    getCurrentSegment rnd (some { stops := some stops }) totalKm =
      match getCurrentSegment.loop rnd (min totalKm lastStop.cum_km) stops with
      | some seg => .ok (some seg)
      | none =>
        if min totalKm lastStop.cum_km ≥ lastStop.cum_km then
          .ok (some { «from» := jsIndex stops ((stops.length : Int) - 2), «to» := lastStop,
                      progress := 1 })
        else .ok none := by
  simp only [getCurrentSegment, jsIndex_length_sub_one, hl]

theorem getLast?_of_getElem? {α : Type} (xs : List α) (b : α)
    (hb : xs[xs.length - 1]? = some b) : xs.getLast? = some b := by
  rw [List.getLast?_eq_getElem?]
  exact hb

/-- The scan returns segment `i` when `stops[i].cum_km ≤ k < stops[i + 1].cum_km` on a strictly
increasing route. -/
theorem loop_hit {rnd : ℚ → ℚ} {stops : List Stop} (h : StrictlyIncreasing stops) (k : ℚ)
    {i : Nat} {a b : Stop} (ha : stops[i]? = some a) (hb : stops[i + 1]? = some b)
    (hlo : a.cum_km ≤ k) (hhi : k < b.cum_km) :
    getCurrentSegment.loop rnd k stops =
      some { «from» := some a, «to» := b, progress := rnd (rnd (k - a.cum_km) / rnd (b.cum_km - a.cum_km)) } := by
  have hs := split_at_index stops i a b ha hb
  have har := h.around ha hb
  rw [hs, loop_skip k _ a _ (fun x hx => le_trans (le_of_lt (har.1 x hx)) hlo) hlo]
  simp only [getCurrentSegment.loop]
  rw [if_pos ⟨hlo, hhi⟩]

/-! ## The walk of `updateRouteLines` -/

theorem foldl_step_done (t : ℚ) (cp : Option Position) (done : List Stop) (c r : List Coord)
    (h : ∀ x ∈ done, x.cum_km ≤ t) :
    done.foldl (updateRouteLines.step t cp) (c, r) = (c ++ done.map Stop.coord, r) := by
  induction done generalizing c with
  | nil => simp
  | cons x xs ih =>
    have hx : t ≥ x.cum_km := h x (by simp)
    rw [List.foldl_cons]
    have hstep : updateRouteLines.step t cp (c, r) x = (c ++ [x.coord], r) := by
      simp only [updateRouteLines.step]
      rw [if_pos hx]
    rw [hstep, ih (c ++ [x.coord]) (fun y hy => h y (List.mem_cons_of_mem _ hy))]
    simp

theorem foldl_step_todo_tail (t : ℚ) (cp : Option Position) (todo : List Stop)
    (c r : List Coord) (hr : r ≠ []) (h : ∀ x ∈ todo, t < x.cum_km) :
    todo.foldl (updateRouteLines.step t cp) (c, r) = (c, r ++ todo.map Stop.coord) := by
  induction todo generalizing r with
  | nil => simp
  | cons x xs ih =>
    have hx : ¬ t ≥ x.cum_km := not_le.mpr (h x (by simp))
    have hlen : ¬ r.length = 0 := by
      intro h0
      exact hr (List.length_eq_zero.mp h0)
    rw [List.foldl_cons]
    have hstep : updateRouteLines.step t cp (c, r) x = (c, r ++ [x.coord]) := by
      simp only [updateRouteLines.step]
      rw [if_neg hx]
      cases cp with
      | none => rfl
      | some pos =>
        simp only []
        rw [if_neg hlen]
    rw [hstep, ih (r ++ [x.coord]) (by simp) (fun y hy => h y (List.mem_cons_of_mem _ hy))]
    simp

theorem foldl_step_todo_none (t : ℚ) (todo : List Stop) (c r : List Coord)
    (h : ∀ x ∈ todo, t < x.cum_km) :
    todo.foldl (updateRouteLines.step t none) (c, r) = (c, r ++ todo.map Stop.coord) := by
  induction todo generalizing r with
  | nil => simp
  | cons x xs ih =>
    have hx : ¬ t ≥ x.cum_km := not_le.mpr (h x (by simp))
    rw [List.foldl_cons]
    have hstep : updateRouteLines.step t none (c, r) x = (c, r ++ [x.coord]) := by
      simp only [updateRouteLines.step]
      rw [if_neg hx]
    rw [hstep, ih (r ++ [x.coord]) (fun y hy => h y (List.mem_cons_of_mem _ hy))]
    simp

theorem foldl_step_todo_some (t : ℚ) (pos : Position) (x : Stop) (xs : List Stop)
    (c : List Coord) (h : ∀ y ∈ x :: xs, t < y.cum_km) :
    (x :: xs).foldl (updateRouteLines.step t (some pos)) (c, []) =
      (c, pos.coord :: (x :: xs).map Stop.coord) := by
  have hx : ¬ t ≥ x.cum_km := not_le.mpr (h x (by simp))
  rw [List.foldl_cons]
  have hstep : updateRouteLines.step t (some pos) (c, []) x = (c, [pos.coord, x.coord]) := by
    simp only [updateRouteLines.step]
    rw [if_neg hx]
    simp
  rw [hstep, foldl_step_todo_tail t (some pos) xs c [pos.coord, x.coord] (by simp)
    (fun y hy => h y (List.mem_cons_of_mem _ hy))]
  simp

/-- The result of `updateRouteLines` when `getCurrentSegment` returned a segment with a
defined `from`, in terms of the arrays the walk leaves. -/
theorem updateRouteLines_of_segment {rnd : ℚ → ℚ} (stops : List Stop) (t : ℚ) (frm dst : Stop) (p : ℚ)
    (cc rc : List Coord)
    (hseg : getCurrentSegment rnd (some { stops := some stops }) t =
      .ok (some { «from» := some frm, «to» := dst, progress := p }))
    (hfold : stops.foldl (updateRouteLines.step t (some (interpolatePosition rnd frm dst p)))
      ([], []) = (cc, rc)) (hcc : cc ≠ []) :
    updateRouteLines rnd (some { stops := some stops }) t =
      .ok (some
        { completedCoords := cc ++ [(interpolatePosition rnd frm dst p).coord],
          remainingCoords := rc,
          completed := some (cc ++ [(interpolatePosition rnd frm dst p).coord]),
          remaining := if rc.length ≥ 2 then some rc else none }) := by
  have hlen : cc.length > 0 := List.length_pos.mpr hcc
  have hlen2 : (cc ++ [(interpolatePosition rnd frm dst p).coord]).length ≥ 2 := by
    rw [List.length_append, List.length_singleton]
    omega
  simp only [updateRouteLines, hseg, hfold]
  rw [if_pos hlen, if_pos hlen2]

/-- The result of `updateRouteLines` when `getCurrentSegment` returned `null`. -/
theorem updateRouteLines_of_null {rnd : ℚ → ℚ} (stops : List Stop) (t : ℚ) (cc rc : List Coord)
    (hseg : getCurrentSegment rnd (some { stops := some stops }) t = .ok none)
    (hfold : stops.foldl (updateRouteLines.step t none) ([], []) = (cc, rc)) :
    updateRouteLines rnd (some { stops := some stops }) t =
      .ok (some
        { completedCoords := cc,
          remainingCoords := rc,
          completed := if cc.length ≥ 2 then some cc else none,
          remaining := if rc.length ≥ 2 then some rc else none }) := by
  simp only [updateRouteLines, hseg, hfold]

theorem exampleStops_increasing : StrictlyIncreasing exampleStops := by
  simp [StrictlyIncreasing, exampleStops, mkStop]
  norm_num

theorem exists_getLast?_of_mem {α : Type} {xs : List α} {x : α} (hx : x ∈ xs) :
    ∃ l, xs.getLast? = some l := by
  cases hgl : xs.getLast? with
  | none =>
    rw [List.getLast?_eq_none_iff] at hgl
    rw [hgl] at hx
    simp at hx
  | some l => exact ⟨l, rfl⟩

/-- The result of `getCurrentSegment` when `totalKm` lies in `[stops[i].cum_km,
stops[i + 1].cum_km)` on a strictly increasing route. -/
theorem getCurrentSegment_of_bracket (rnd : ℚ → ℚ) (stops : List Stop) (totalKm : ℚ) (i : Nat) (a b : Stop)
    (hmono : StrictlyIncreasing stops)
    (ha : stops[i]? = some a) (hb : stops[i + 1]? = some b)
    (hlo : a.cum_km ≤ totalKm) (hhi : totalKm < b.cum_km) :
    getCurrentSegment rnd (some { stops := some stops }) totalKm =
      .ok (some { «from» := some a, «to» := b,
                  progress := rnd (rnd (totalKm - a.cum_km) / rnd (b.cum_km - a.cum_km)) }) := by
  have hbmem : b ∈ stops := List.getElem?_mem hb
  obtain ⟨lastStop, hl⟩ := exists_getLast?_of_mem hbmem
  have hble : b.cum_km ≤ lastStop.cum_km := hmono.le_getLast hl b hbmem
  have hmin : min totalKm lastStop.cum_km = totalKm :=
    min_eq_left (le_of_lt (lt_of_lt_of_le hhi hble))
  rw [getCurrentSegment_of_getLast stops totalKm lastStop hl, hmin,
    loop_hit hmono totalKm ha hb hlo hhi]

/-- The result of `getCurrentSegment` when `totalKm` is at or beyond the last marker of a
strictly increasing route with at least two stops. -/
theorem getCurrentSegment_of_end (rnd : ℚ → ℚ) (stops : List Stop) (totalKm : ℚ) (a b : Stop)
    (hN : 2 ≤ stops.length) (hmono : StrictlyIncreasing stops)
    (ha : stops[stops.length - 2]? = some a) (hb : stops[stops.length - 1]? = some b)
    (hend : b.cum_km ≤ totalKm) :
    getCurrentSegment rnd (some { stops := some stops }) totalKm =
      .ok (some { «from» := some a, «to» := b, progress := 1 }) := by
  have hl : stops.getLast? = some b := getLast?_of_getElem? stops b hb
  have hmin : min totalKm b.cum_km = b.cum_km := min_eq_right hend
  have hloop : getCurrentSegment.loop rnd b.cum_km stops = none :=
    loop_none_of_le _ _ (fun x hx => hmono.le_getLast hl x (List.mem_of_mem_tail hx))
  rw [getCurrentSegment_of_getLast stops totalKm b hl, hmin, hloop]
  simp only [ge_iff_le, le_refl, if_true]
  rw [jsIndex_length_sub_two stops hN, ha]

/-- Every stop of a strictly increasing route has a marker above any distance that is below
the first marker. -/
theorem lt_cum_km_of_lt_first (stops : List Stop) (totalKm : ℚ) (s0 : Stop)
    (hmono : StrictlyIncreasing stops) (h0 : stops[0]? = some s0)
    (hlt : totalKm < s0.cum_km) : ∀ x ∈ stops, totalKm < x.cum_km := by
  intro x hx
  cases stops with
  | nil => simp at hx
  | cons y rest =>
    simp at h0
    subst h0
    have hp := hmono.pairwise
    rw [List.pairwise_cons] at hp
    rw [List.mem_cons] at hx
    rcases hx with hx | hx
    · rw [hx]; exact hlt
    · have := hp.1 x hx
      linarith

/-- The result of `getCurrentSegment` when `totalKm` is below every marker. -/
theorem getCurrentSegment_of_before (rnd : ℚ → ℚ) (stops : List Stop) (totalKm : ℚ)
    (hne : stops ≠ []) (hall : ∀ x ∈ stops, totalKm < x.cum_km) :
    getCurrentSegment rnd (some { stops := some stops }) totalKm = .ok none := by
  have hl : stops.getLast? = some (stops.getLast hne) := List.getLast?_eq_getLast stops hne
  have hlast : totalKm < (stops.getLast hne).cum_km := hall _ (List.getLast_mem hne)
  have hmin : min totalKm (stops.getLast hne).cum_km = totalKm := min_eq_left (le_of_lt hlast)
  rw [getCurrentSegment_of_getLast stops totalKm _ hl, hmin,
    loop_none_of_lt totalKm stops hall]
  simp only [ge_iff_le]
  rw [if_neg (not_le.mpr hlast)]

/-! ## The arrays built by `updateRouteLines` -/

theorem take_drop_succ {α : Type} (xs : List α) (i : Nat) (a b : α)
    (ha : xs[i]? = some a) (hb : xs[i + 1]? = some b) :
    xs.take (i + 1) = xs.take i ++ [a] ∧ xs.drop (i + 1) = b :: xs.drop (i + 2) := by
  induction xs generalizing i with
  | nil => simp at ha
  | cons x xs ih =>
    cases i with
    | zero =>
      cases xs with
      | nil => simp at hb
      | cons y ys =>
        simp at ha hb
        simp [ha, hb]
    | succ i =>
      simp at ha hb
      have h := ih i ha hb
      simp only [List.take_succ_cons, List.cons_append, List.drop_succ_cons]
      exact ⟨congrArg _ h.1, h.2⟩

/-- The arrays built by `updateRouteLines` when `totalKm` lies in `[stops[i].cum_km,
stops[i + 1].cum_km)` on a strictly increasing route. -/
theorem updateRouteLines_of_bracket (rnd : ℚ → ℚ) (stops : List Stop) (t : ℚ) (i : Nat) (a b : Stop)
    (hmono : StrictlyIncreasing stops)
    (ha : stops[i]? = some a) (hb : stops[i + 1]? = some b)
    (hlo : a.cum_km ≤ t) (hhi : t < b.cum_km) :
    updateRouteLines rnd (some { stops := some stops }) t =
      .ok (some
        { completedCoords := (stops.take (i + 1)).map Stop.coord ++
            [(interpolatePosition rnd a b (rnd (rnd (t - a.cum_km) / rnd (b.cum_km - a.cum_km)))).coord],
          remainingCoords :=
            (interpolatePosition rnd a b (rnd (rnd (t - a.cum_km) / rnd (b.cum_km - a.cum_km)))).coord ::
              (stops.drop (i + 1)).map Stop.coord,
          completed := some ((stops.take (i + 1)).map Stop.coord ++
            [(interpolatePosition rnd a b (rnd (rnd (t - a.cum_km) / rnd (b.cum_km - a.cum_km)))).coord]),
          remaining := some
            ((interpolatePosition rnd a b (rnd (rnd (t - a.cum_km) / rnd (b.cum_km - a.cum_km)))).coord ::
              (stops.drop (i + 1)).map Stop.coord) }) := by
  have hseg := getCurrentSegment_of_bracket rnd stops t i a b hmono ha hb hlo hhi
  have har := hmono.around ha hb
  have htd := take_drop_succ stops i a b ha hb
  have hdone : ∀ x ∈ stops.take (i + 1), x.cum_km ≤ t := by
    intro x hx
    rw [htd.1, List.mem_append] at hx
    rcases hx with hx | hx
    · exact le_trans (le_of_lt (har.1 x hx)) hlo
    · simp at hx
      rw [hx]; exact hlo
  have htodo : ∀ x ∈ b :: stops.drop (i + 2), t < x.cum_km := by
    intro x hx
    rw [List.mem_cons] at hx
    rcases hx with hx | hx
    · rw [hx]; exact hhi
    · exact lt_trans hhi (har.2.2 x hx)
  have hfold : stops.foldl (updateRouteLines.step t
      (some (interpolatePosition rnd a b (rnd (rnd (t - a.cum_km) / rnd (b.cum_km - a.cum_km)))))) ([], []) =
      ((stops.take (i + 1)).map Stop.coord,
        (interpolatePosition rnd a b (rnd (rnd (t - a.cum_km) / rnd (b.cum_km - a.cum_km)))).coord ::
          (stops.drop (i + 1)).map Stop.coord) := by
    conv_lhs => rw [← List.take_append_drop (i + 1) stops]
    rw [List.foldl_append, foldl_step_done t _ _ [] [] hdone, htd.2,
      foldl_step_todo_some t _ b _ _ htodo]
    simp
  have hcc : (stops.take (i + 1)).map Stop.coord ≠ [] := by
    rw [htd.1]; simp
  have hrc : ((interpolatePosition rnd a b (rnd (rnd (t - a.cum_km) / rnd (b.cum_km - a.cum_km)))).coord ::
      (stops.drop (i + 1)).map Stop.coord).length ≥ 2 := by
    rw [htd.2]; simp
  rw [updateRouteLines_of_segment stops t a b _ _ _ hseg hfold hcc, if_pos hrc]

/-- The arrays built by `updateRouteLines` when `totalKm` is at or beyond the last marker of a
strictly increasing route with at least two stops. -/
theorem updateRouteLines_of_end (rnd : ℚ → ℚ) (stops : List Stop) (t : ℚ) (a b : Stop)
    (hN : 2 ≤ stops.length) (hmono : StrictlyIncreasing stops)
    (ha : stops[stops.length - 2]? = some a) (hb : stops[stops.length - 1]? = some b)
    (hend : b.cum_km ≤ t) :
    updateRouteLines rnd (some { stops := some stops }) t =
      .ok (some
        { completedCoords := stops.map Stop.coord ++ [(interpolatePosition rnd a b 1).coord],
          remainingCoords := [],
          completed := some (stops.map Stop.coord ++ [(interpolatePosition rnd a b 1).coord]),
          remaining := none }) := by
  have hseg := getCurrentSegment_of_end rnd stops t a b hN hmono ha hb hend
  have hl : stops.getLast? = some b := getLast?_of_getElem? stops b hb
  have hdone : ∀ x ∈ stops, x.cum_km ≤ t :=
    fun x hx => le_trans (hmono.le_getLast hl x hx) hend
  have hfold : stops.foldl (updateRouteLines.step t (some (interpolatePosition rnd a b 1)))
      ([], []) = (stops.map Stop.coord, []) := by
    rw [foldl_step_done t _ _ [] [] hdone]
    simp
  have hcc : stops.map Stop.coord ≠ [] := by
    intro h
    rw [List.map_eq_nil_iff] at h
    rw [h] at hN
    simp at hN
  rw [updateRouteLines_of_segment stops t a b 1 _ _ hseg hfold hcc]
  simp

/-- The arrays built by `updateRouteLines` when `totalKm` is below every marker. -/
theorem updateRouteLines_of_before (rnd : ℚ → ℚ) (stops : List Stop) (t : ℚ)
    (hN : 2 ≤ stops.length) (hall : ∀ x ∈ stops, t < x.cum_km) :
    updateRouteLines rnd (some { stops := some stops }) t =
      .ok (some
        { completedCoords := [],
          remainingCoords := stops.map Stop.coord,
          completed := none,
          remaining := some (stops.map Stop.coord) }) := by
  have hne : stops ≠ [] := by
    intro h
    rw [h] at hN
    simp at hN
  have hseg := getCurrentSegment_of_before rnd stops t hne hall
  have hfold : stops.foldl (updateRouteLines.step t none) ([], []) =
      ([], stops.map Stop.coord) := by
    rw [foldl_step_todo_none t _ [] [] hall]
    simp
  rw [updateRouteLines_of_null stops t _ _ hseg hfold]
  have hlen : (stops.map Stop.coord).length ≥ 2 := by
    rw [List.length_map]; exact hN
  rw [if_pos hlen]
  simp

/-- Where a distance falls on a non-empty route: before the first marker, at or beyond the
last one, or in a bracket `[stops[i].cum_km, stops[i + 1].cum_km)`. -/
theorem bracket_cases (stops : List Stop) (hne : stops ≠ []) (t : ℚ) :
    t < (stops.head hne).cum_km ∨ (stops.getLast hne).cum_km ≤ t ∨
      ∃ i a b, stops[i]? = some a ∧ stops[i + 1]? = some b ∧ a.cum_km ≤ t ∧ t < b.cum_km := by
  induction stops with
  | nil => exact absurd rfl hne
  | cons x rest ih =>
    cases rest with
    | nil =>
      rcases lt_or_le t x.cum_km with h | h
      · exact Or.inl h
      · exact Or.inr (Or.inl h)
    | cons y rest =>
      rcases ih (by simp) with h | h | ⟨i, a, b, ha, hb, hlo, hhi⟩
      · rcases lt_or_le t x.cum_km with hx | hx
        · exact Or.inl hx
        · exact Or.inr (Or.inr ⟨0, x, y, by simp, by simp, hx, h⟩)
      · exact Or.inr (Or.inl (by simpa using h))
      · exact Or.inr (Or.inr ⟨i + 1, a, b, by simpa using ha, by simpa using hb, hlo, hhi⟩)

/-! ## Progress in rounded arithmetic -/

theorem progress_at_marker {rnd : ℚ → ℚ} (hzero : rnd 0 = 0) (a d : ℚ) :
    rnd (rnd (a - a) / d) = 0 := by
  rw [sub_self, hzero, zero_div, hzero]

theorem progress_bounds {rnd : ℚ → ℚ} (hr : Rounding rnd) {a b k : ℚ}
    (hra : rnd a = a) (hrb : rnd b = b) (hlo : a ≤ k) (hhi : k < b) :
    0 < rnd (b - a) ∧ 0 ≤ rnd (rnd (k - a) / rnd (b - a)) ∧
      rnd (rnd (k - a) / rnd (b - a)) ≤ 1 := by
  have hd : 0 < rnd (b - a) := hr.sub_pos_of_lt a b hra hrb (lt_of_le_of_lt hlo hhi)
  have hn0 : 0 ≤ rnd (k - a) := by
    have h := hr.mono 0 (k - a) (sub_nonneg.mpr hlo)
    rw [hr.map_zero] at h
    exact h
  have hnd : rnd (k - a) ≤ rnd (b - a) := hr.mono _ _ (by linarith)
  have hq0 : 0 ≤ rnd (k - a) / rnd (b - a) := div_nonneg hn0 (le_of_lt hd)
  have hq1 : rnd (k - a) / rnd (b - a) ≤ 1 := (div_le_one hd).mpr hnd
  refine ⟨hd, ?_, ?_⟩
  · have h := hr.mono _ _ hq0
    rw [hr.map_zero] at h
    exact h
  · have h := hr.mono _ _ hq1
    rw [hr.map_one] at h
    exact h

theorem binary64_natCast (n : ℕ) (hn : n < 2 ^ 53) : binary64 (n : ℚ) = n := by
  have h := binary64_intCast (n : ℤ) (by
    rw [abs_of_nonneg (Int.natCast_nonneg n)]
    exact_mod_cast hn)
  simpa using h

theorem exampleStops_representable : ∀ s ∈ exampleStops, binary64 s.cum_km = s.cum_km := by
  intro s hs
  simp only [exampleStops, List.mem_cons, List.mem_singleton, List.not_mem_nil, or_false] at hs
  rcases hs with h | h | h | h <;> rw [h] <;> simp only [mkStop]
  · exact binary64_zero
  · exact_mod_cast binary64_natCast 10 (by norm_num)
  · exact_mod_cast binary64_natCast 25 (by norm_num)
  · exact_mod_cast binary64_natCast 50 (by norm_num)

/-! ## Claims about `getCurrentSegment` and `interpolatePosition` -/

/-- C1 fails as stated: in double arithmetic the progress of a distance strictly between two
markers can be exactly `1` or exactly `0`. On the markers `6.7` and `15.4` the distance
`15.399999999999999` lies strictly between them and `getCurrentSegment` returns progress `1`
(both differences round to the same double); on the markers `0` and `4` the distance `5e-324`
lies strictly between them and `getCurrentSegment` returns progress `0` (the quotient
underflows). -/
theorem getCurrentSegment_within_counterexample :
    (StrictlyIncreasing decimalStops ∧
      binary64 (67 / 10) = 7543529375845581 / 2 ^ 50 ∧
      binary64 (154 / 10) = 8669429282688205 / 2 ^ 49 ∧
      binary64 (15399999999999999 / 1000000000000000) = justBelowEnd ∧
      (7543529375845581 / 2 ^ 50 : ℚ) < justBelowEnd ∧
      justBelowEnd < 8669429282688205 / 2 ^ 49 ∧
      getCurrentSegment binary64 (some { stops := some decimalStops }) justBelowEnd =
        .ok (some { «from» := some (mkStop "a" 0 0 (7543529375845581 / 2 ^ 50)),
                    «to» := mkStop "b" 1 1 (8669429282688205 / 2 ^ 49),
                    progress := 1 })) ∧
    (StrictlyIncreasing shortStops ∧ 0 < tinyKm ∧ tinyKm < 4 ∧
      getCurrentSegment binary64 (some { stops := some shortStops }) tinyKm =
        .ok (some { «from» := some (mkStop "a" 0 0 0), «to» := mkStop "b" 1 1 4,
                    progress := 0 })) := by
  have hmono1 : StrictlyIncreasing decimalStops := by
    simp [StrictlyIncreasing, decimalStops, mkStop]
    norm_num
  have hmono2 : StrictlyIncreasing shortStops := by
    simp [StrictlyIncreasing, shortStops, mkStop]
  have hlo1 : (7543529375845581 / 2 ^ 50 : ℚ) < justBelowEnd := by norm_num [justBelowEnd]
  have hhi1 : justBelowEnd < 8669429282688205 / 2 ^ 49 := by norm_num [justBelowEnd]
  have hnum : binary64 (justBelowEnd - 7543529375845581 / 2 ^ 50) =
      ((4897664594765414 : ℤ) : ℚ) * 2 ^ (3 - 52 : ℤ) :=
    binary64_eval 3 4897664594765414 (by norm_num [justBelowEnd]) (by norm_num)
      (Or.inl (by norm_num [justBelowEnd])) (by norm_num [justBelowEnd])
      (roundHalfEven_eq_of_tie_up (by norm_num) (by norm_num [justBelowEnd]))
  have hden : binary64 (8669429282688205 / 2 ^ 49 - 7543529375845581 / 2 ^ 50) =
      ((4897664594765414 : ℤ) : ℚ) * 2 ^ (3 - 52 : ℤ) :=
    binary64_eval 3 4897664594765414 (by norm_num) (by norm_num)
      (Or.inl (by norm_num)) (by norm_num)
      (roundHalfEven_eq_of_tie_down (by norm_num) (by norm_num))
  have hprog1 : binary64 (binary64 (justBelowEnd - 7543529375845581 / 2 ^ 50) /
      binary64 (8669429282688205 / 2 ^ 49 - 7543529375845581 / 2 ^ 50)) = 1 := by
    rw [hnum, hden, div_self (by norm_num), binary64_one]
  have hseg1 := getCurrentSegment_of_bracket binary64 decimalStops justBelowEnd 0
    (mkStop "a" 0 0 (7543529375845581 / 2 ^ 50)) (mkStop "b" 1 1 (8669429282688205 / 2 ^ 49))
    hmono1 (by simp [decimalStops]) (by simp [decimalStops]) (le_of_lt hlo1) hhi1
  simp only [mkStop] at hseg1
  rw [hprog1] at hseg1
  have htiny0 : (0 : ℚ) < tinyKm := by
    unfold tinyKm
    positivity
  have htiny4 : tinyKm < 4 := by norm_num [tinyKm]
  have htnum : binary64 (tinyKm - 0) = tinyKm := by
    have h := binary64_dyadic 1 (-1074) (by norm_num) (le_refl _)
    rw [sub_zero]
    unfold tinyKm
    simpa using h
  have htden : binary64 ((4 : ℚ) - 0) = 4 := by
    rw [sub_zero]
    exact_mod_cast binary64_natCast 4 (by norm_num)
  have htq : binary64 (tinyKm / 4) = 0 := by
    have h := binary64_eval (q := tinyKm / 4) (-1022) 0 (by unfold tinyKm; positivity)
      (by norm_num) (Or.inr rfl) (by norm_num [tinyKm])
      (roundHalfEven_eq_of_lt (by norm_num [tinyKm]) (by norm_num [tinyKm]))
    simpa using h
  have hseg2 := getCurrentSegment_of_bracket binary64 shortStops tinyKm 0
    (mkStop "a" 0 0 0) (mkStop "b" 1 1 4)
    hmono2 (by simp [shortStops]) (by simp [shortStops]) (le_of_lt htiny0) htiny4
  simp only [mkStop] at hseg2
  rw [htnum, htden, htq] at hseg2
  refine ⟨⟨hmono1, ?_, ?_, ?_, hlo1, hhi1, hseg1⟩, hmono2, htiny0, htiny4, hseg2⟩
  · have h := binary64_eval (q := 67 / 10) 2 7543529375845581 (by norm_num) (by norm_num)
      (Or.inl (by norm_num)) (by norm_num)
      (roundHalfEven_eq_of_lt (by norm_num) (by norm_num))
    rw [h]
    norm_num
  · have h := binary64_eval (q := 154 / 10) 3 8669429282688205 (by norm_num) (by norm_num)
      (Or.inl (by norm_num)) (by norm_num)
      (roundHalfEven_eq_of_lt (by norm_num) (by norm_num))
    rw [h]
    norm_num
  · have h := binary64_eval (q := 15399999999999999 / 1000000000000000) 3 8669429282688204
      (by norm_num) (by norm_num)
      (Or.inl (by norm_num)) (by norm_num)
      (roundHalfEven_eq_of_lt (by norm_num) (by norm_num))
    rw [h]
    norm_num [justBelowEnd]

/-- C1, amended: on a route whose `cum_km` is strictly increasing, if `stops[i] = a`,
`stops[i + 1] = b` (so the route has at least two stops and `i < N - 1`) and
`a.cum_km ≤ totalKm < b.cum_km`, then `getCurrentSegment(totalKm)` returns the segment from `a`
to `b` with `progress = (totalKm - a.cum_km) / (b.cum_km - a.cum_km)` as the arithmetic of the
program computes it, every operation rounded. For a rounding with the properties of `Rounding`
(double precision is one) and markers that are numbers of that arithmetic, the divisor is
strictly positive, the progress is `0` when `totalKm` equals `a.cum_km`, and it lies in
`[0, 1]` when `totalKm` is strictly between the two markers. In exact rational arithmetic the
progress then lies strictly between `0` and `1`. (With the non-negative markers of the data
model no operation here overflows, so `binary64` is the arithmetic of the source.) -/
theorem getCurrentSegment_within (rnd : ℚ → ℚ) (hr : Rounding rnd)
    (stops : List Stop) (totalKm : ℚ) (i : Nat) (a b : Stop)
    (hmono : StrictlyIncreasing stops)
    (ha : stops[i]? = some a) (hb : stops[i + 1]? = some b)
    (hra : rnd a.cum_km = a.cum_km) (hrb : rnd b.cum_km = b.cum_km)
    (hlo : a.cum_km ≤ totalKm) (hhi : totalKm < b.cum_km) :
    getCurrentSegment rnd (some { stops := some stops }) totalKm =
        .ok (some { «from» := some a, «to» := b,
                    progress := rnd (rnd (totalKm - a.cum_km) / rnd (b.cum_km - a.cum_km)) }) ∧
      0 < rnd (b.cum_km - a.cum_km) ∧
      (totalKm = a.cum_km →
        rnd (rnd (totalKm - a.cum_km) / rnd (b.cum_km - a.cum_km)) = 0) ∧
      (a.cum_km < totalKm →
        0 ≤ rnd (rnd (totalKm - a.cum_km) / rnd (b.cum_km - a.cum_km)) ∧
          rnd (rnd (totalKm - a.cum_km) / rnd (b.cum_km - a.cum_km)) ≤ 1) ∧
      getCurrentSegment unrounded (some { stops := some stops }) totalKm =
        .ok (some { «from» := some a, «to» := b,
                    progress := (totalKm - a.cum_km) / (b.cum_km - a.cum_km) }) ∧
      (a.cum_km < totalKm →
        0 < (totalKm - a.cum_km) / (b.cum_km - a.cum_km) ∧
          (totalKm - a.cum_km) / (b.cum_km - a.cum_km) < 1) := by
  have hab : a.cum_km < b.cum_km := lt_of_le_of_lt hlo hhi
  have hd : 0 < b.cum_km - a.cum_km := sub_pos.mpr hab
  have hbnd := progress_bounds hr hra hrb hlo hhi
  refine ⟨getCurrentSegment_of_bracket rnd stops totalKm i a b hmono ha hb hlo hhi, hbnd.1,
    ?_, fun _ => hbnd.2, getCurrentSegment_of_bracket unrounded stops totalKm i a b hmono ha hb
      hlo hhi, ?_⟩
  · intro h
    rw [h]
    exact progress_at_marker hr.map_zero _ _
  · intro h
    have hn : 0 < totalKm - a.cum_km := sub_pos.mpr h
    refine ⟨div_pos hn hd, ?_⟩
    rw [div_lt_one hd]
    linarith

theorem getCurrentSegment_within_witness :
    getCurrentSegment binary64 exampleRoute 15 =
        .ok (some { «from» := some (mkStop "s1" 3 6 10), «to» := mkStop "s2" 6 9 25,
                    progress := binary64 (binary64 (15 - 10) / binary64 (25 - 10)) }) ∧
      0 < binary64 (25 - 10) ∧
      0 ≤ binary64 (binary64 (15 - 10) / binary64 (25 - 10)) ∧
      binary64 (binary64 (15 - 10) / binary64 (25 - 10)) ≤ 1 := by
  have h := getCurrentSegment_within binary64 binary64_rounding exampleStops 15 1
    (mkStop "s1" 3 6 10) (mkStop "s2" 6 9 25)
    exampleStops_increasing (by simp [exampleStops]) (by simp [exampleStops])
    (exampleStops_representable _ (by simp [exampleStops]))
    (exampleStops_representable _ (by simp [exampleStops]))
    (by norm_num [mkStop]) (by norm_num [mkStop])
  have hb := h.2.2.2.1 (by norm_num [mkStop])
  exact ⟨h.1, h.2.1, hb.1, hb.2⟩

/-- C2: on a route with at least two stops whose `cum_km` is strictly increasing, for every
`totalKm` at or beyond the last stop's `cum_km`, `getCurrentSegment(totalKm)` is not `null`: it
returns the final segment, from `stops[N - 2]` to `stops[N - 1]`, with `progress = 1`. This
holds whatever the rounding of the arithmetic. -/
theorem getCurrentSegment_at_or_past_end (rnd : ℚ → ℚ) (stops : List Stop) (totalKm : ℚ)
    (a b : Stop) (hN : 2 ≤ stops.length) (hmono : StrictlyIncreasing stops)
    (ha : stops[stops.length - 2]? = some a) (hb : stops[stops.length - 1]? = some b)
    (hend : b.cum_km ≤ totalKm) :
    getCurrentSegment rnd (some { stops := some stops }) totalKm =
      .ok (some { «from» := some a, «to» := b, progress := 1 }) :=
  getCurrentSegment_of_end rnd stops totalKm a b hN hmono ha hb hend

theorem getCurrentSegment_at_or_past_end_witness :
    getCurrentSegment binary64 exampleRoute 999 =
      .ok (some { «from» := some (mkStop "s2" 6 9 25), «to» := mkStop "s3" 12 18 50,
                  progress := 1 }) :=
  getCurrentSegment_at_or_past_end binary64 exampleStops 999 (mkStop "s2" 6 9 25)
    (mkStop "s3" 12 18 50) (by simp [exampleStops]) exampleStops_increasing
    (by simp [exampleStops]) (by simp [exampleStops]) (by norm_num [mkStop])

/-- C3 fails as stated: with an empty stop list `getCurrentSegment(0)` throws (it reads
`cum_km` of the undefined last stop), and with the single stop `s0` at `cum_km = 0` it returns
a segment (whose `from` is undefined) instead of `null`. -/
theorem getCurrentSegment_few_stops_counterexample :
    getCurrentSegment binary64 (some { stops := some [] }) 0 = .error .typeError ∧
      getCurrentSegment binary64 (some { stops := some [] }) 0 ≠ .ok none ∧
      getCurrentSegment binary64 (some { stops := some [mkStop "s0" 0 0 0] }) 0 =
        .ok (some { «from» := none, «to» := mkStop "s0" 0 0 0, progress := 1 }) ∧
      getCurrentSegment binary64 (some { stops := some [mkStop "s0" 0 0 0] }) 0 ≠ .ok none := by
  have h1 : getCurrentSegment binary64 (some { stops := some [] }) 0 = .error .typeError := by
    simp [getCurrentSegment, jsIndex]
  have h2 : getCurrentSegment binary64 (some { stops := some [mkStop "s0" 0 0 0] }) 0 =
      .ok (some { «from» := none, «to» := mkStop "s0" 0 0 0, progress := 1 }) := by
    simp [getCurrentSegment, jsIndex, getCurrentSegment.loop, mkStop]
  refine ⟨h1, ?_, h2, ?_⟩
  · rw [h1]; simp
  · rw [h2]; simp

/-- C3, amended: when the route is unset (`routeData` is `null`, or it has no `stops`),
`getCurrentSegment(totalKm)` returns `null` for every `totalKm`; on a route with exactly one
stop it returns `null` for every `totalKm` below that stop's `cum_km`. This holds whatever the
rounding of the arithmetic. -/
theorem getCurrentSegment_unset_or_single (rnd : ℚ → ℚ) (totalKm : ℚ) (s : Stop)
    (h : totalKm < s.cum_km) :
    getCurrentSegment rnd none totalKm = .ok none ∧
      getCurrentSegment rnd (some { stops := none }) totalKm = .ok none ∧
      getCurrentSegment rnd (some { stops := some [s] }) totalKm = .ok none := by
  refine ⟨rfl, rfl, ?_⟩
  have hl : [s].getLast? = some s := rfl
  rw [getCurrentSegment_of_getLast [s] totalKm s hl]
  have hmin : min totalKm s.cum_km = totalKm := min_eq_left (le_of_lt h)
  rw [hmin]
  simp only [getCurrentSegment.loop]
  rw [if_neg (not_le.mpr h)]

theorem getCurrentSegment_unset_or_single_witness :
    getCurrentSegment binary64 none (-1) = .ok none ∧
      getCurrentSegment binary64 (some { stops := none }) (-1) = .ok none ∧
      getCurrentSegment binary64 (some { stops := some [mkStop "s0" 0 0 0] }) (-1) = .ok none :=
  getCurrentSegment_unset_or_single binary64 (-1) (mkStop "s0" 0 0 0) (by norm_num [mkStop])

/-- C4 fails as stated: on the example route (markers `0, 10, 25, 50`) the negative distance
`-1` is not treated as `0`: `getCurrentSegment(-1)` is `null`, while `getCurrentSegment(0)` is
the segment from `s0` to `s1` with progress `0`. -/
theorem getCurrentSegment_negative_counterexample :
    getCurrentSegment binary64 exampleRoute (-1) = .ok none ∧
      getCurrentSegment binary64 exampleRoute 0 =
        .ok (some { «from» := some (mkStop "s0" 0 0 0), «to» := mkStop "s1" 3 6 10,
                    progress := 0 }) ∧
      getCurrentSegment binary64 exampleRoute (-1) ≠ getCurrentSegment binary64 exampleRoute 0 := by
  have h1 : getCurrentSegment binary64 exampleRoute (-1) = .ok none := by
    simp [getCurrentSegment, exampleRoute, exampleStops, jsIndex, getCurrentSegment.loop, mkStop]
    norm_num
  have h2 : getCurrentSegment binary64 exampleRoute 0 =
      .ok (some { «from» := some (mkStop "s0" 0 0 0), «to» := mkStop "s1" 3 6 10,
                  progress := 0 }) := by
    have h := getCurrentSegment_of_bracket binary64 exampleStops 0 0 (mkStop "s0" 0 0 0)
      (mkStop "s1" 3 6 10) exampleStops_increasing (by simp [exampleStops])
      (by simp [exampleStops]) (by norm_num [mkStop]) (by norm_num [mkStop])
    have hp : binary64 (binary64 ((0 : ℚ) - (mkStop "s0" 0 0 0).cum_km) /
        binary64 ((mkStop "s1" 3 6 10).cum_km - (mkStop "s0" 0 0 0).cum_km)) = 0 :=
      progress_at_marker binary64_zero 0 _
    rw [hp] at h
    exact h
  refine ⟨h1, h2, ?_⟩
  rw [h1, h2]
  simp

/-- C4, amended: on a route with at least two stops whose `cum_km` is strictly increasing from
`cum_km[0] = 0`, `getCurrentSegment(totalKm)` returns `null` for every negative `totalKm` (there
is no lower clamp), while `getCurrentSegment(0)` returns the segment from `stops[0]` to
`stops[1]` with progress `0`. This holds for every rounding that leaves `0` unchanged. -/
theorem getCurrentSegment_negative (rnd : ℚ → ℚ) (hzero : rnd 0 = 0)
    (stops : List Stop) (totalKm : ℚ) (s0 s1 : Stop)
    (hmono : StrictlyIncreasing stops)
    (h0 : stops[0]? = some s0) (h1 : stops[1]? = some s1) (hstart : s0.cum_km = 0)
    (hneg : totalKm < 0) :
    getCurrentSegment rnd (some { stops := some stops }) totalKm = .ok none ∧
      getCurrentSegment rnd (some { stops := some stops }) 0 =
        .ok (some { «from» := some s0, «to» := s1, progress := 0 }) := by
  have hne : stops ≠ [] := List.ne_nil_of_mem (List.getElem?_mem h0)
  have har := hmono.around h0 h1
  constructor
  · exact getCurrentSegment_of_before rnd stops totalKm hne
      (lt_cum_km_of_lt_first stops totalKm s0 hmono h0 (by rw [hstart]; exact hneg))
  · have h := getCurrentSegment_of_bracket rnd stops 0 0 s0 s1 hmono h0 h1
      (le_of_eq hstart) (by linarith [har.2.1])
    have hp : rnd (rnd ((0 : ℚ) - s0.cum_km) / rnd (s1.cum_km - s0.cum_km)) = 0 := by
      rw [hstart]
      exact progress_at_marker hzero 0 _
    rw [h, hp]

theorem getCurrentSegment_negative_witness :
    getCurrentSegment binary64 exampleRoute (-1) = .ok none ∧
      getCurrentSegment binary64 exampleRoute 0 =
        .ok (some { «from» := some (mkStop "s0" 0 0 0), «to» := mkStop "s1" 3 6 10,
                    progress := 0 }) :=
  getCurrentSegment_negative binary64 binary64_zero exampleStops (-1) (mkStop "s0" 0 0 0)
    (mkStop "s1" 3 6 10) exampleStops_increasing (by simp [exampleStops])
    (by simp [exampleStops]) (by simp [mkStop]) (by norm_num)

/-- C9: for all stops `A` and `B` and every progress `p`, over exact rationals,
`interpolatePosition(A, B, 0)` has the coordinates of `A`, `interpolatePosition(A, B, 1)` has the
coordinates of `B`, `interpolatePosition(A, B, 1/2)` has the arithmetic midpoint of the two, and
in general each coordinate is `from + (to - from) * p`, computed separately for `lat` and
`lon`. -/
theorem interpolatePosition_linear (A B : Stop) (p : ℚ) :
    interpolatePosition unrounded A B 0 = { lat := A.lat, lon := A.lon } ∧
      interpolatePosition unrounded A B 1 = { lat := B.lat, lon := B.lon } ∧
      interpolatePosition unrounded A B (1 / 2) =
        { lat := (A.lat + B.lat) / 2, lon := (A.lon + B.lon) / 2 } ∧
      (interpolatePosition unrounded A B p).lat = A.lat + (B.lat - A.lat) * p ∧
      (interpolatePosition unrounded A B p).lon = A.lon + (B.lon - A.lon) * p := by
  refine ⟨?_, ?_, ?_, rfl, rfl⟩
  · simp [interpolatePosition, unrounded]
  · simp [interpolatePosition, unrounded]
  · simp only [interpolatePosition, unrounded, Position.mk.injEq]
    constructor <;> ring

/-- C10: on a route with at least two stops, with no assumption on the order of the markers,
whenever `getCurrentSegment(totalKm)` returns a segment, its `from` and `to` are consecutive
stops `stops[i]` and `stops[i + 1]`, its progress lies in `[0, 1]`, and the result either is
the final segment with progress `1` or comes from the dividing branch, where the divisor
`stops[i + 1].cum_km - stops[i].cum_km` is strictly positive, also after rounding, and the
progress is `(clampedKm - stops[i].cum_km) / (stops[i + 1].cum_km - stops[i].cum_km)` as the
arithmetic computes it, with `clampedKm = min(totalKm, lastStop.cum_km)`. This holds for exact
arithmetic and for every rounding with the properties of `Rounding` when the markers are
numbers of that arithmetic. (With the non-negative markers of the data model no operation
here overflows, so `binary64` is the arithmetic of the source.) -/
theorem getCurrentSegment_sound (rnd : ℚ → ℚ) (hr : Rounding rnd)
    (stops : List Stop) (totalKm : ℚ) (seg : Segment)
    (hN : 2 ≤ stops.length) (hrep : ∀ s ∈ stops, rnd s.cum_km = s.cum_km)
    (h : getCurrentSegment rnd (some { stops := some stops }) totalKm = .ok (some seg)) :
    ∃ i a b lastStop, stops[i]? = some a ∧ stops[i + 1]? = some b ∧
      stops[stops.length - 1]? = some lastStop ∧
      seg.«from» = some a ∧ seg.«to» = b ∧ 0 ≤ seg.progress ∧ seg.progress ≤ 1 ∧
      ((i + 2 = stops.length ∧ seg.progress = 1) ∨
        (0 < b.cum_km - a.cum_km ∧ 0 < rnd (b.cum_km - a.cum_km) ∧
          seg.progress =
            rnd (rnd (min totalKm lastStop.cum_km - a.cum_km) / rnd (b.cum_km - a.cum_km)))) := by
  have hne : stops ≠ [] := by
    intro hnil
    rw [hnil] at hN
    simp at hN
  have hl : stops.getLast? = some (stops.getLast hne) := List.getLast?_eq_getLast stops hne
  have hlast : stops[stops.length - 1]? = some (stops.getLast hne) := by
    rw [← List.getLast?_eq_getElem?]
    exact hl
  rw [getCurrentSegment_of_getLast stops totalKm _ hl] at h
  cases hloop : getCurrentSegment.loop rnd (min totalKm (stops.getLast hne).cum_km) stops with
  | some s =>
    rw [hloop] at h
    have hs : s = seg := Option.some.inj (Except.ok.inj h)
    obtain ⟨i, a, b, ha, hb, hlo, hhi, hseg⟩ := loop_some _ _ _ hloop
    have hd : 0 < b.cum_km - a.cum_km := sub_pos.mpr (lt_of_le_of_lt hlo hhi)
    have hbnd := progress_bounds hr (hrep a (List.getElem?_mem ha))
      (hrep b (List.getElem?_mem hb)) hlo hhi
    rw [← hs, hseg]
    exact ⟨i, a, b, stops.getLast hne, ha, hb, hlast, rfl, rfl, hbnd.2.1, hbnd.2.2,
      Or.inr ⟨hd, hbnd.1, rfl⟩⟩
  | none =>
    rw [hloop] at h
    by_cases hc : min totalKm (stops.getLast hne).cum_km ≥ (stops.getLast hne).cum_km
    · simp only [] at h
      rw [if_pos hc, jsIndex_length_sub_two stops hN] at h
      have hs := Option.some.inj (Except.ok.inj h)
      have hlt : stops.length - 2 < stops.length := by omega
      have hfrom : stops[stops.length - 2]? = some (stops[stops.length - 2]) :=
        List.getElem?_eq_getElem hlt
      have hidx : stops.length - 2 + 1 = stops.length - 1 := by omega
      refine ⟨stops.length - 2, stops[stops.length - 2], stops.getLast hne, stops.getLast hne,
        hfrom, ?_, hlast, ?_, ?_, ?_, ?_, Or.inl ⟨by omega, ?_⟩⟩
      · rw [hidx]; exact hlast
      · rw [← hs]; exact hfrom
      · rw [← hs]
      · rw [← hs]; norm_num
      · rw [← hs]
      · rw [← hs]
    · simp only [] at h
      rw [if_neg hc] at h
      have := Except.ok.inj h
      simp at this

theorem getCurrentSegment_sound_witness :
    ∃ i a b lastStop, exampleStops[i]? = some a ∧ exampleStops[i + 1]? = some b ∧
      exampleStops[exampleStops.length - 1]? = some lastStop ∧
      (some (mkStop "s1" 3 6 10)) = some a ∧ mkStop "s2" 6 9 25 = b ∧
      0 ≤ binary64 (binary64 (15 - 10) / binary64 (25 - 10)) ∧
      binary64 (binary64 (15 - 10) / binary64 (25 - 10)) ≤ 1 ∧
      ((i + 2 = exampleStops.length ∧ binary64 (binary64 (15 - 10) / binary64 (25 - 10)) = 1) ∨
        (0 < b.cum_km - a.cum_km ∧ 0 < binary64 (b.cum_km - a.cum_km) ∧
          binary64 (binary64 (15 - 10) / binary64 (25 - 10)) =
            binary64 (binary64 (min 15 lastStop.cum_km - a.cum_km) /
              binary64 (b.cum_km - a.cum_km)))) :=
  getCurrentSegment_sound binary64 binary64_rounding exampleStops 15
    { «from» := some (mkStop "s1" 3 6 10), «to» := mkStop "s2" 6 9 25,
      progress := binary64 (binary64 (15 - 10) / binary64 (25 - 10)) }
    (by simp [exampleStops]) exampleStops_representable
    (getCurrentSegment_of_bracket binary64 exampleStops 15 1 (mkStop "s1" 3 6 10)
      (mkStop "s2" 6 9 25) exampleStops_increasing (by simp [exampleStops])
      (by simp [exampleStops]) (by norm_num [mkStop]) (by norm_num [mkStop]))

/-! ## Claims about `updateRouteLines` -/

/-- C5: on a route with at least two stops whose `cum_km` is strictly increasing,
`updateRouteLines(totalKm)` builds its two arrays for every `totalKm`, and if `completedCoords`
and `remainingCoords` are both non-empty then the last element of `completedCoords` equals the
first element of `remainingCoords`, and that shared coordinate is
`interpolatePosition(segment.from, segment.to, segment.progress)` for
`segment = getCurrentSegment(totalKm)`. This holds whatever the rounding of the arithmetic. -/
theorem updateRouteLines_seam (rnd : ℚ → ℚ) (stops : List Stop) (totalKm : ℚ)
    (hN : 2 ≤ stops.length) (hmono : StrictlyIncreasing stops) :
    ∃ rl, updateRouteLines rnd (some { stops := some stops }) totalKm = .ok (some rl) ∧
      (rl.completedCoords ≠ [] → rl.remainingCoords ≠ [] →
        ∃ seg frm,
          getCurrentSegment rnd (some { stops := some stops }) totalKm = .ok (some seg) ∧
          seg.«from» = some frm ∧
          rl.completedCoords.getLast? =
            some (interpolatePosition rnd frm seg.«to» seg.progress).coord ∧
          rl.remainingCoords.head? =
            some (interpolatePosition rnd frm seg.«to» seg.progress).coord) := by
  have hne : stops ≠ [] := by
    intro h
    rw [h] at hN
    simp at hN
  rcases bracket_cases stops hne totalKm with h | h | ⟨i, a, b, ha, hb, hlo, hhi⟩
  · have h0 : stops[0]? = some (stops.head hne) := by
      cases stops with
      | nil => exact absurd rfl hne
      | cons x xs => simp
    have hall := lt_cum_km_of_lt_first stops totalKm _ hmono h0 h
    refine ⟨_, updateRouteLines_of_before rnd stops totalKm hN hall, ?_⟩
    intro hc
    exact absurd rfl hc
  · have h1 : stops.length - 1 < stops.length := by omega
    have h2 : stops.length - 2 < stops.length := by omega
    have hb : stops[stops.length - 1]? = some (stops.getLast hne) := by
      rw [← List.getLast?_eq_getElem?]
      exact List.getLast?_eq_getLast stops hne
    have ha : stops[stops.length - 2]? = some (stops[stops.length - 2]) :=
      List.getElem?_eq_getElem h2
    refine ⟨_, updateRouteLines_of_end rnd stops totalKm _ _ hN hmono ha hb h, ?_⟩
    intro _ hr
    exact absurd rfl hr
  · refine ⟨_, updateRouteLines_of_bracket rnd stops totalKm i a b hmono ha hb hlo hhi, ?_⟩
    intro _ _
    refine ⟨_, a, getCurrentSegment_of_bracket rnd stops totalKm i a b hmono ha hb hlo hhi,
      rfl, ?_, ?_⟩
    · simp
    · simp

theorem updateRouteLines_seam_witness :
    ∃ rl, updateRouteLines binary64 exampleRoute 15 = .ok (some rl) ∧
      (rl.completedCoords ≠ [] → rl.remainingCoords ≠ [] →
        ∃ seg frm, getCurrentSegment binary64 exampleRoute 15 = .ok (some seg) ∧
          seg.«from» = some frm ∧
          rl.completedCoords.getLast? =
            some (interpolatePosition binary64 frm seg.«to» seg.progress).coord ∧
          rl.remainingCoords.head? =
            some (interpolatePosition binary64 frm seg.«to» seg.progress).coord) :=
  updateRouteLines_seam binary64 exampleStops 15 (by simp [exampleStops]) exampleStops_increasing

/-- C6: on a route whose `cum_km` is strictly increasing, if `stops[i] = a`, `stops[i + 1] = b`
and `a.cum_km < totalKm < b.cum_km`, then `updateRouteLines(totalKm)` builds `completedCoords` as
the coordinates of `stops[0..i]` in order followed by the current point, and `remainingCoords`
as the current point followed by the coordinates of `stops[i+1..N-1]` in order, where the
current point is the linear interpolation between `a` and `b` at progress
`(totalKm - a.cum_km) / (b.cum_km - a.cum_km)`, both as the arithmetic of the program computes
them. This holds whatever the rounding of the arithmetic. -/
theorem updateRouteLines_between (rnd : ℚ → ℚ) (stops : List Stop) (totalKm : ℚ) (i : Nat)
    (a b : Stop) (hmono : StrictlyIncreasing stops)
    (ha : stops[i]? = some a) (hb : stops[i + 1]? = some b)
    (hlo : a.cum_km < totalKm) (hhi : totalKm < b.cum_km) :
    ∃ rl cur,
      getCurrentSegment rnd (some { stops := some stops }) totalKm =
        .ok (some { «from» := some a, «to» := b,
                    progress := rnd (rnd (totalKm - a.cum_km) / rnd (b.cum_km - a.cum_km)) }) ∧
      updateRouteLines rnd (some { stops := some stops }) totalKm = .ok (some rl) ∧
      cur = (rnd (a.lat + rnd (rnd (b.lat - a.lat) *
          rnd (rnd (totalKm - a.cum_km) / rnd (b.cum_km - a.cum_km)))),
        rnd (a.lon + rnd (rnd (b.lon - a.lon) *
          rnd (rnd (totalKm - a.cum_km) / rnd (b.cum_km - a.cum_km))))) ∧
      rl.completedCoords = (stops.take (i + 1)).map Stop.coord ++ [cur] ∧
      rl.remainingCoords = cur :: (stops.drop (i + 1)).map Stop.coord :=
  ⟨_, _, getCurrentSegment_of_bracket rnd stops totalKm i a b hmono ha hb (le_of_lt hlo) hhi,
    updateRouteLines_of_bracket rnd stops totalKm i a b hmono ha hb (le_of_lt hlo) hhi,
    rfl, rfl, rfl⟩

theorem updateRouteLines_between_witness :
    ∃ rl,
      getCurrentSegment binary64 exampleRoute 15 =
        .ok (some { «from» := some (mkStop "s1" 3 6 10), «to» := mkStop "s2" 6 9 25,
                    progress := 6004799503160661 / 2 ^ 54 }) ∧
      binary64 (1 / 3) = 6004799503160661 / 2 ^ 54 ∧
      updateRouteLines binary64 exampleRoute 15 = .ok (some rl) ∧
      rl.completedCoords = [(0, 0), (3, 6), (4, 7)] ∧
      rl.remainingCoords = [(4, 7), (6, 9), (12, 18)] := by
  obtain ⟨rl, cur, hseg, h, hcur, hc, hr⟩ :=
    updateRouteLines_between binary64 exampleStops 15 1 (mkStop "s1" 3 6 10)
      (mkStop "s2" 6 9 25) exampleStops_increasing (by simp [exampleStops])
      (by simp [exampleStops]) (by norm_num [mkStop]) (by norm_num [mkStop])
  have hthird : binary64 (1 / 3) = 6004799503160661 / 2 ^ 54 := by
    have h := binary64_eval (q := 1 / 3) (-2) 6004799503160661 (by norm_num) (by norm_num)
      (Or.inl (by norm_num)) (by norm_num)
      (roundHalfEven_eq_of_lt (by norm_num) (by norm_num))
    rw [h]
    norm_num
  have h1 : binary64 ((15 : ℚ) - 10) = 5 := by
    have h := binary64_natCast 5 (by norm_num)
    norm_num at h ⊢
    exact h
  have h2 : binary64 ((25 : ℚ) - 10) = 15 := by
    have h := binary64_natCast 15 (by norm_num)
    norm_num at h ⊢
    exact h
  have h3 : binary64 ((5 : ℚ) / 15) = 6004799503160661 / 2 ^ 54 := by
    have h53 : (5 : ℚ) / 15 = 1 / 3 := by norm_num
    rw [h53, hthird]
  have h4 : binary64 ((6 : ℚ) - 3) = 3 := by
    have h := binary64_natCast 3 (by norm_num)
    norm_num at h ⊢
    exact h
  have h5 : binary64 ((3 : ℚ) * (6004799503160661 / 2 ^ 54)) = 1 := by
    have h := binary64_eval (q := (3 : ℚ) * (6004799503160661 / 2 ^ 54)) (-1) 9007199254740992
      (by norm_num) (by norm_num) (Or.inl (by norm_num)) (by norm_num)
      (roundHalfEven_eq_of_tie_up (by norm_num) (by norm_num))
    rw [h]
    norm_num
  have h6 : binary64 ((3 : ℚ) + 1) = 4 := by
    have h := binary64_natCast 4 (by norm_num)
    norm_num at h ⊢
    exact h
  have h7 : binary64 ((9 : ℚ) - 6) = 3 := by
    have h := binary64_natCast 3 (by norm_num)
    norm_num at h ⊢
    exact h
  have h8 : binary64 ((6 : ℚ) + 1) = 7 := by
    have h := binary64_natCast 7 (by norm_num)
    norm_num at h ⊢
    exact h
  simp only [mkStop] at hseg hcur
  rw [h1, h2, h3] at hseg hcur
  rw [h4, h5, h6, h7, h5, h8] at hcur
  refine ⟨rl, hseg, hthird, h, ?_, ?_⟩
  · rw [hc, hcur]
    simp [exampleStops, Stop.coord, mkStop]
  · rw [hr, hcur]
    simp [exampleStops, Stop.coord, mkStop]

/-- C7 fails as stated: on the example route (markers `0, 10, 25, 50`), `updateRouteLines(0)`
builds `completedCoords = [stop0, stop0]`: two points, equal and consecutive, and the completed
line is drawn from them. -/
theorem updateRouteLines_at_start_counterexample :
    ∃ rl, updateRouteLines binary64 exampleRoute 0 = .ok (some rl) ∧
      rl.completedCoords = [(0, 0), (0, 0)] ∧
      ¬ rl.completedCoords.length < 2 ∧
      ¬ List.Chain' (fun x y => x ≠ y) rl.completedCoords ∧
      rl.completed = some [(0, 0), (0, 0)] := by
  have h := updateRouteLines_of_bracket binary64 exampleStops 0 0 (mkStop "s0" 0 0 0)
    (mkStop "s1" 3 6 10) exampleStops_increasing (by simp [exampleStops])
    (by simp [exampleStops]) (by norm_num [mkStop]) (by norm_num [mkStop])
  have hp : binary64 (binary64 ((0 : ℚ) - (mkStop "s0" 0 0 0).cum_km) /
      binary64 ((mkStop "s1" 3 6 10).cum_km - (mkStop "s0" 0 0 0).cum_km)) = 0 :=
    progress_at_marker binary64_zero 0 _
  have hcur : (interpolatePosition binary64 (mkStop "s0" 0 0 0) (mkStop "s1" 3 6 10) 0).coord =
      (0, 0) := by
    simp [interpolatePosition, Position.coord, mkStop, binary64_zero]
  rw [hp, hcur] at h
  refine ⟨_, h, ?_, ?_, ?_, ?_⟩
  · simp [exampleStops, Stop.coord, mkStop]
  · simp [exampleStops]
  · simp [exampleStops, Stop.coord, mkStop]
  · simp [exampleStops, Stop.coord, mkStop]

/-- C7, amended: on a route with at least two stops whose `cum_km` is strictly increasing from
`cum_km[0] = 0`, `updateRouteLines(0)` resolves to the segment from `stops[0]` to `stops[1]` with
progress `0`; the current point equals the coordinate of `stops[0]` and is appended after it,
so `completedCoords` is that coordinate twice: it has exactly two points and the completed line
is drawn from them. This holds for every rounding that leaves `0` and the coordinates of
`stops[0]` unchanged. -/
theorem updateRouteLines_at_start (rnd : ℚ → ℚ) (hzero : rnd 0 = 0)
    (stops : List Stop) (s0 s1 : Stop)
    (hmono : StrictlyIncreasing stops)
    (h0 : stops[0]? = some s0) (h1 : stops[1]? = some s1) (hstart : s0.cum_km = 0)
    (hlat : rnd s0.lat = s0.lat) (hlon : rnd s0.lon = s0.lon) :
    getCurrentSegment rnd (some { stops := some stops }) 0 =
        .ok (some { «from» := some s0, «to» := s1, progress := 0 }) ∧
      (interpolatePosition rnd s0 s1 0).coord = s0.coord ∧
      ∃ rl, updateRouteLines rnd (some { stops := some stops }) 0 = .ok (some rl) ∧
        rl.completedCoords = [s0.coord, s0.coord] ∧
        rl.completedCoords.length = 2 ∧
        rl.completed = some [s0.coord, s0.coord] := by
  have har := hmono.around h0 h1
  have hlo : s0.cum_km ≤ 0 := le_of_eq hstart
  have hhi : (0 : ℚ) < s1.cum_km := by linarith [har.2.1]
  have hp : rnd (rnd ((0 : ℚ) - s0.cum_km) / rnd (s1.cum_km - s0.cum_km)) = 0 := by
    rw [hstart]
    exact progress_at_marker hzero 0 _
  have hseg := getCurrentSegment_of_bracket rnd stops 0 0 s0 s1 hmono h0 h1 hlo hhi
  have hrl := updateRouteLines_of_bracket rnd stops 0 0 s0 s1 hmono h0 h1 hlo hhi
  have hcur : (interpolatePosition rnd s0 s1 0).coord = s0.coord := by
    simp [interpolatePosition, Position.coord, Stop.coord, hzero, hlat, hlon]
  have htake : (stops.take (0 + 1)).map Stop.coord = [s0.coord] := by
    rw [(take_drop_succ stops 0 s0 s1 h0 h1).1]
    simp
  rw [hp] at hseg hrl
  rw [hcur, htake] at hrl
  exact ⟨hseg, hcur, _, hrl, rfl, rfl, rfl⟩

theorem updateRouteLines_at_start_witness :
    getCurrentSegment binary64 exampleRoute 0 =
        .ok (some { «from» := some (mkStop "s0" 0 0 0), «to» := mkStop "s1" 3 6 10,
                    progress := 0 }) ∧
      (interpolatePosition binary64 (mkStop "s0" 0 0 0) (mkStop "s1" 3 6 10) 0).coord =
        (mkStop "s0" 0 0 0).coord ∧
      ∃ rl, updateRouteLines binary64 exampleRoute 0 = .ok (some rl) ∧
        rl.completedCoords = [(mkStop "s0" 0 0 0).coord, (mkStop "s0" 0 0 0).coord] ∧
        rl.completedCoords.length = 2 ∧
        rl.completed = some [(mkStop "s0" 0 0 0).coord, (mkStop "s0" 0 0 0).coord] :=
  updateRouteLines_at_start binary64 binary64_zero exampleStops (mkStop "s0" 0 0 0)
    (mkStop "s1" 3 6 10) exampleStops_increasing (by simp [exampleStops])
    (by simp [exampleStops]) (by simp [mkStop]) (by simp [mkStop, binary64_zero])
    (by simp [mkStop, binary64_zero])

/-- C8 fails as stated: in double arithmetic the current point at progress `1` need not be the
last stop's coordinate. On the two stops `A = (0.7, 0.3)` and `B = (0.1, 0.2)` with markers `0`
and `5`, `updateRouteLines(8)` appends a point whose latitude is `0.7 + (0.1 - 0.7) * 1`, which
rounds to `0.09999999999999998`, two units in the last place below the latitude `0.1` of the
last stop. -/
theorem updateRouteLines_at_or_past_end_counterexample :
    StrictlyIncreasing coastStops ∧
      binary64 (7 / 10) = 3152519739159347 / 2 ^ 52 ∧
      binary64 (1 / 10) = 3602879701896397 / 2 ^ 55 ∧
      ∃ rl cur, updateRouteLines binary64 (some { stops := some coastStops }) 8 = .ok (some rl) ∧
        rl.completedCoords.getLast? = some cur ∧
        cur.1 = 900719925474099 / 2 ^ 53 ∧
        cur.1 < 3602879701896397 / 2 ^ 55 ∧
        rl.completedCoords.getLast? ≠
          some (mkStop "B" (3602879701896397 / 2 ^ 55) (3602879701896397 / 2 ^ 54) 5).coord := by
  have hmono : StrictlyIncreasing coastStops := by
    simp [StrictlyIncreasing, coastStops, mkStop]
  have h := updateRouteLines_of_end binary64 coastStops 8
    (mkStop "A" (3152519739159347 / 2 ^ 52) (5404319552844595 / 2 ^ 54) 0)
    (mkStop "B" (3602879701896397 / 2 ^ 55) (3602879701896397 / 2 ^ 54) 5)
    (by simp [coastStops]) hmono (by simp [coastStops]) (by simp [coastStops])
    (by norm_num [mkStop])
  have hd : binary64 ((3602879701896397 / 2 ^ 55 : ℚ) - 3152519739159347 / 2 ^ 52) =
      -(((5404319552844595 : ℤ) : ℚ) * 2 ^ (-1 - 52 : ℤ)) :=
    binary64_eval_neg (-1) 5404319552844595 (by norm_num) (by norm_num)
      (Or.inl (by norm_num)) (by norm_num)
      (roundHalfEven_eq_of_lt (by norm_num) (by norm_num))
  have hm : binary64 (-(((5404319552844595 : ℤ) : ℚ) * 2 ^ (-1 - 52 : ℤ)) * 1) =
      -(((5404319552844595 : ℤ) : ℚ) * 2 ^ (-1 - 52 : ℤ)) := by
    have h := binary64_dyadic (-5404319552844595) (-53) (by norm_num) (by norm_num)
    norm_num at h ⊢
    exact h
  have hs : binary64 ((3152519739159347 / 2 ^ 52 : ℚ) +
      -(((5404319552844595 : ℤ) : ℚ) * 2 ^ (-1 - 52 : ℤ))) = 900719925474099 / 2 ^ 53 := by
    have h := binary64_dyadic 900719925474099 (-53) (by norm_num) (by norm_num)
    norm_num at h ⊢
    exact h
  have hlat : (interpolatePosition binary64
      (mkStop "A" (3152519739159347 / 2 ^ 52) (5404319552844595 / 2 ^ 54) 0)
      (mkStop "B" (3602879701896397 / 2 ^ 55) (3602879701896397 / 2 ^ 54) 5) 1).coord.1 =
      900719925474099 / 2 ^ 53 := by
    simp only [interpolatePosition, Position.coord, mkStop]
    rw [hd, hm, hs]
  refine ⟨hmono, ?_, ?_, _, _, h, by simp, hlat, ?_, ?_⟩
  · have h := binary64_eval (q := 7 / 10) (-1) 6305039478318694 (by norm_num) (by norm_num)
      (Or.inl (by norm_num)) (by norm_num)
      (roundHalfEven_eq_of_lt (by norm_num) (by norm_num))
    rw [h]
    norm_num
  · have h := binary64_eval (q := 1 / 10) (-4) 7205759403792794 (by norm_num) (by norm_num)
      (Or.inl (by norm_num)) (by norm_num)
      (roundHalfEven_eq_of_lt (by norm_num) (by norm_num))
    rw [h]
    norm_num
  · rw [hlat]
    norm_num
  · intro hcon
    have hcon2 : (interpolatePosition binary64
        (mkStop "A" (3152519739159347 / 2 ^ 52) (5404319552844595 / 2 ^ 54) 0)
        (mkStop "B" (3602879701896397 / 2 ^ 55) (3602879701896397 / 2 ^ 54) 5) 1).coord =
        (mkStop "B" (3602879701896397 / 2 ^ 55) (3602879701896397 / 2 ^ 54) 5).coord := by
      simpa using hcon
    have h1 := congrArg Prod.fst hcon2
    rw [hlat] at h1
    norm_num [Stop.coord, mkStop] at h1

/-- C8, amended: on a route with at least two stops whose `cum_km` is strictly increasing, for
every `totalKm` at or beyond the last stop's `cum_km`, `getCurrentSegment(totalKm)` is the final
segment with progress `1`, and `updateRouteLines(totalKm)` builds an empty `remainingCoords` and
a `completedCoords` made of the coordinates of all stops in order followed by the current
point `interpolatePosition(stops[N - 2], stops[N - 1], 1)`, that is `from + (to - from) * 1` per
coordinate as the arithmetic of the program computes it; the result is the one built for
`totalKm = lastStop.cum_km`. In exact rational arithmetic the current point equals the last
stop's coordinate. -/
theorem updateRouteLines_at_or_past_end (rnd : ℚ → ℚ) (stops : List Stop) (totalKm : ℚ)
    (a b : Stop) (hN : 2 ≤ stops.length) (hmono : StrictlyIncreasing stops)
    (ha : stops[stops.length - 2]? = some a) (hb : stops[stops.length - 1]? = some b)
    (hend : b.cum_km ≤ totalKm) :
    getCurrentSegment rnd (some { stops := some stops }) totalKm =
        .ok (some { «from» := some a, «to» := b, progress := 1 }) ∧
      (∃ rl, updateRouteLines rnd (some { stops := some stops }) totalKm = .ok (some rl) ∧
        rl.remainingCoords = [] ∧
        rl.completedCoords = stops.map Stop.coord ++
          [(rnd (a.lat + rnd (rnd (b.lat - a.lat) * 1)),
            rnd (a.lon + rnd (rnd (b.lon - a.lon) * 1)))] ∧
        updateRouteLines rnd (some { stops := some stops }) b.cum_km = .ok (some rl)) ∧
      (∃ rl, updateRouteLines unrounded (some { stops := some stops }) totalKm = .ok (some rl) ∧
        rl.remainingCoords = [] ∧
        rl.completedCoords = stops.map Stop.coord ++ [b.coord]) := by
  have hcur : (interpolatePosition unrounded a b 1).coord = b.coord := by
    simp [interpolatePosition, unrounded, Position.coord, Stop.coord]
  refine ⟨getCurrentSegment_of_end rnd stops totalKm a b hN hmono ha hb hend,
    ⟨_, updateRouteLines_of_end rnd stops totalKm a b hN hmono ha hb hend, rfl, rfl,
      updateRouteLines_of_end rnd stops b.cum_km a b hN hmono ha hb (le_refl _)⟩,
    ⟨_, updateRouteLines_of_end unrounded stops totalKm a b hN hmono ha hb hend, rfl, ?_⟩⟩
  rw [hcur]

theorem updateRouteLines_at_or_past_end_witness :
    getCurrentSegment binary64 exampleRoute 999 =
        .ok (some { «from» := some (mkStop "s2" 6 9 25), «to» := mkStop "s3" 12 18 50,
                    progress := 1 }) ∧
      ∃ rl, updateRouteLines binary64 exampleRoute 999 = .ok (some rl) ∧
        rl.remainingCoords = [] ∧
        rl.completedCoords = [(0, 0), (3, 6), (6, 9), (12, 18), (12, 18)] := by
  obtain ⟨hseg, ⟨rl, h, hr, hc, _⟩, _⟩ :=
    updateRouteLines_at_or_past_end binary64 exampleStops 999 (mkStop "s2" 6 9 25)
      (mkStop "s3" 12 18 50) (by simp [exampleStops]) exampleStops_increasing
      (by simp [exampleStops]) (by simp [exampleStops]) (by norm_num [mkStop])
  have h1 : binary64 ((12 : ℚ) - 6) = 6 := by
    have h := binary64_natCast 6 (by norm_num)
    norm_num at h ⊢
    exact h
  have h2 : binary64 ((6 : ℚ) * 1) = 6 := by
    have h := binary64_natCast 6 (by norm_num)
    norm_num at h ⊢
    exact h
  have h3 : binary64 ((6 : ℚ) + 6) = 12 := by
    have h := binary64_natCast 12 (by norm_num)
    norm_num at h ⊢
    exact h
  have h4 : binary64 ((18 : ℚ) - 9) = 9 := by
    have h := binary64_natCast 9 (by norm_num)
    norm_num at h ⊢
    exact h
  have h5 : binary64 ((9 : ℚ) * 1) = 9 := by
    have h := binary64_natCast 9 (by norm_num)
    norm_num at h ⊢
    exact h
  have h6 : binary64 ((9 : ℚ) + 9) = 18 := by
    have h := binary64_natCast 18 (by norm_num)
    norm_num at h ⊢
    exact h
  simp only [mkStop] at hc
  rw [h1, h2, h3, h4, h5, h6] at hc
  refine ⟨hseg, rl, h, hr, ?_⟩
  rw [hc]
  simp [exampleStops, Stop.coord, mkStop]

end Miklagaard

